import Mathlib

/-!
Verification of the combinatorial move-generation core of the Liverpool
(contract rummy) engine.

The development shallowly embeds the Python sources:

* `liverpool/common.py` — the card encoding (`Card`, `card_rank`,
  `card_color`) and the combo value types;
* `liverpool/combinatorics.py` — `uniq`, `sort_uniq`, `unique_combinations`;
* `liverpool/hand.py` — the transactional hand multiset (`Hand.__init__`,
  `put_card`, `take_card`, `commit`, `rollback`);
* `liverpool/generation.py` — `IndexedHand`, `interleave`,
  `ranks_from_rundex`, `sets_from_colors`, the direct and LUT-backed
  enumerators, `iter_adds`, `iter_extends`.

Counts are embedded as `Int` (Python integers never truncate), card
multisets as fixed-length count arrays indexed by the 7-bit card encoding,
and generator functions as functions returning lists in emission order.
The file is organized as definitions first, then all theorems.
-/

namespace Liverpool

/-! ## Card model (`liverpool/common.py`)

A card is a 7-bit integer: bit 6 is the joker flag, bits 0..5 encode
`rank + color * (Rank.MAX + 1)` with ranks in `[2, 14]` and colors
CLUB = 0, SPADE = 1, HEART = 2, DIAMOND = 3.  `Rank.MAX + 1 = 15`. -/

structure Card where
  value : Nat
deriving DecidableEq

/-- `value & ~JOKER_MASK`, i.e. the encoding with the joker bit cleared. -/
def Card.masked (c : Card) : Nat :=
  if c.value.testBit 6 then c.value - 64 else c.value

/-- `Card.is_joker`: bit 6 of the encoding. -/
def Card.isJoker (c : Card) : Bool :=
  c.value.testBit 6

/-- `Card.is_materialized`: the masked value is nonzero. -/
def Card.isMaterialized (c : Card) : Bool :=
  c.masked ≠ 0

/-- `Card.of(rank, color, joker)`. -/
def Card.of (rank color : Nat) (joker : Bool) : Card :=
  ⟨rank + color * 15 + if joker then 64 else 0⟩

/-- `Card.joker()`: the unmaterialized joker, value `1 << 6 = 64`.  The
older `hand.py` revision refers to this singleton as `Card.JOKER`. -/
def Card.JOKER : Card :=
  ⟨64⟩

/-- The validation performed by `Card.__init__`: the masked value is either
zero (the unmaterialized joker) or lies in `[Card.MIN, Card.MAX] = [2, 59]`. -/
def Card.Valid (c : Card) : Prop :=
  c.masked = 0 ∨ (2 ≤ c.masked ∧ c.masked ≤ 59)

/-- The `Card.rank` property: `None` for the unmaterialized joker, otherwise
`masked_value % (Rank.MAX + 1)`. -/
def Card.rank (c : Card) : Option Nat :=
  if c.masked = 0 then none else some (c.masked % 15)

/-- The `Card.color` property: `None` for the unmaterialized joker, otherwise
`masked_value // (Rank.MAX + 1)`. -/
def Card.color (c : Card) : Option Nat :=
  if c.masked = 0 then none else some (c.masked / 15)

/-- The rank as a plain natural; call sites guarantee a non-joker card, where
the Python property returns the integer `masked % 15`. -/
def Card.rankNat (c : Card) : Nat :=
  c.masked % 15

/-- The color as a plain natural; call sites guarantee a non-joker card, where
the Python property returns the integer `masked // 15`. -/
def Card.colorNat (c : Card) : Nat :=
  c.masked / 15

/-- `Card.dematerialized()`: jokers lose their pinned rank and color, any
other card is returned unchanged. -/
def Card.dematerialized (c : Card) : Card :=
  if c.isJoker then Card.JOKER else c

/-- `Card.__lt__`: comparison of the integer encodings. -/
def Card.lt (a b : Card) : Prop :=
  a.value < b.value

instance Card.decLt : DecidableRel Card.lt := fun a b =>
  inferInstanceAs (Decidable (a.value < b.value))

/-- `Card.__le__` in the sense used by `sorted(cards)` in `Set.__init__`
(stable sort by the integer encodings). -/
def Card.le (a b : Card) : Prop :=
  a.value ≤ b.value

instance Card.decLe : DecidableRel Card.le := fun a b =>
  inferInstanceAs (Decidable (a.value ≤ b.value))

/-- The module-level helper `card_color` of `common.py`: masks the joker bit
and returns `masked % (Rank.MAX + 1)` (or `None` for zero). -/
def card_color (value : Nat) : Option Nat :=
  let maskedValue := if value.testBit 6 then value - 64 else value
  if maskedValue = 0 then none else some (maskedValue % 15)

/-- The module-level helper `card_rank` of `common.py`: masks the joker bit
and returns `masked // (Rank.MAX + 1)` (or `None` for zero). -/
def card_rank (value : Nat) : Option Nat :=
  let maskedValue := if value.testBit 6 then value - 64 else value
  if maskedValue = 0 then none else some (maskedValue / 15)

/-! ## Combinatorics (`liverpool/combinatorics.py`) -/

/-- The loop body of `uniq(sorted_iterable)`: the first component is the
`last` accumulator (initially `None`); an element equal to `last` is
skipped, any other element is yielded and becomes the new `last`. -/
def uniqGo {α : Type} [DecidableEq α] : Option α → List α → List α
  | _, [] => []
  | last, x :: xs =>
    if some x = last then uniqGo last xs else x :: uniqGo (some x) xs

/-- `uniq(iterable)`: drop elements equal to their immediate predecessor. -/
def uniq {α : Type} [DecidableEq α] (l : List α) : List α :=
  uniqGo none l

/-- `sort_uniq(values)` and its keyed variant used by `generation.py`:
`uniq(sorted(values, ...))`.  Python `sorted` is a stable sort driven by
`__lt__` of the values (or of the keys); the embedding takes the resulting
total preorder `r` as a parameter and uses a stable insertion sort. -/
def sortUniq {α : Type} (r : α → α → Prop) [DecidableRel r] [DecidableEq α]
    (l : List α) : List α :=
  uniq (List.insertionSort r l)

/-- `itertools.combinations(pool, number)`: all subsequences of length
`number`, emitted in lexicographic order of positions. -/
def combinations {α : Type} : List α → Nat → List (List α)
  | _, 0 => [[]]
  | [], _ + 1 => []
  | x :: xs, k + 1 =>
    ((combinations xs k).map (fun s => x :: s)) ++ combinations xs (k + 1)

/-- `unique_combinations(cards, number) = uniq(itertools.combinations(...))`. -/
def uniqueCombinations {α : Type} [DecidableEq α] (l : List α) (k : Nat) :
    List (List α) :=
  uniq (combinations l k)

/-- A sequence in which equal elements are adjacent, presented as its list of
(value, extra-copies) groups; `(a, n)` contributes `n + 1` copies of `a`. -/
def expandGroups {α : Type} (gs : List (α × Nat)) : List α :=
  gs.flatMap (fun p => List.replicate (p.2 + 1) p.1)

/-! ## The hand state (`liverpool/hand.py` with the `IndexedHand`
additions of `liverpool/generation.py`)

The combined mutable state of an `IndexedHand`:

* `cards` — the per-card count dictionary, embedded as a count array over
  the 124 possible encodings (naturals 2..59, joker 64, materialized
  jokers 66..123);
* `jokers` — the number of unmaterialized jokers held;
* `stack` — the take-stack; the head is the top (the end of the Python
  list), `none` is the `None` transaction sentinel;
* `rundex`, `setdices` — the legacy indices kept by `Hand.__init__`
  (`setdices` stores a `sorted_list` of colors per rank, which is
  observationally a multiset, embedded as four per-color counts);
* `rundexen`, `setdexen` — the `IndexedHand` indices; a `setdexen` entry
  is a `Setdex.value`, the packed 2-bits-per-color counter. -/

@[ext]
structure HandState where
  cards : List Int
  jokers : Int
  stack : List (Option Card)
  rundex : List (List Int)
  setdices : List (List Int)
  rundexen : List (List Int)
  setdexen : List Int
deriving DecidableEq

/-- Add `delta` to the count at index `i` (`d[i] += delta` on a count
array; Python dict updates never fail, `List.set` out of range is the
unreachable case of an index that no card encodes). -/
def bump (l : List Int) (i : Nat) (delta : Int) : List Int :=
  l.set i (l.getD i 0 + delta)

/-- Add `delta` to the count at `m[i][j]` (a two-level index update such as
`self.rundex[card.color][card.rank] += 1`). -/
def bump2 (m : List (List Int)) (i j : Nat) (delta : Int) : List (List Int) :=
  m.set i (bump (m.getD i []) j delta)

/-- `Hand.put_card` combined with the `IndexedHand.put_card` override:
an unmaterialized joker only increments the joker count; any other card
increments its count and the legacy indices, and additionally the
`IndexedHand` indices when it is not a (materialized) joker. -/
def putCard (h : HandState) (c : Card) : HandState :=
  if c.value = 64 then { h with jokers := h.jokers + 1 }
  else
    { h with
      cards := bump h.cards c.value 1
      rundex := bump2 h.rundex c.colorNat c.rankNat 1
      setdices := bump2 h.setdices c.rankNat c.colorNat 1
      rundexen :=
        if c.isJoker then h.rundexen
        else bump2 h.rundexen c.colorNat c.rankNat 1
      setdexen :=
        if c.isJoker then h.setdexen
        else bump h.setdexen c.rankNat (4 ^ c.colorNat) }

/-- `Hand.take_card` combined with the `IndexedHand.take_card` override.
If the requested card is the unmaterialized joker or its count is not
positive, a joker is taken instead (raising `InvalidTake`, i.e. `none`,
when no joker is held — the raise happens before any mutation).  Otherwise
the count, the legacy indices and (for non-joker cards) the `IndexedHand`
indices are decremented, and the taken card is pushed on the stack. -/
def takeCard (h : HandState) (c : Card) : Option (HandState × Card) :=
  if c.value = 64 ∨ h.cards.getD c.value 0 ≤ 0 then
    if h.jokers = 0 then none
    else
      some ({ h with jokers := h.jokers - 1,
                     stack := some Card.JOKER :: h.stack }, Card.JOKER)
  else
    some ({ h with
      cards := bump h.cards c.value (-1)
      rundex := bump2 h.rundex c.colorNat c.rankNat (-1)
      setdices := bump2 h.setdices c.rankNat c.colorNat (-1)
      rundexen :=
        if c.isJoker then h.rundexen
        else bump2 h.rundexen c.colorNat c.rankNat (-1)
      setdexen :=
        if c.isJoker then h.setdexen
        else bump h.setdexen c.rankNat (-(4 ^ c.colorNat))
      stack := some c :: h.stack }, c)

/-- `Hand.commit`: push a transaction sentinel. -/
def commit (h : HandState) : HandState :=
  { h with stack := none :: h.stack }

/-- The loop of `Hand.rollback`, with the stack length as fuel: while the
top of the stack is a card (not a sentinel and not empty), pop it and put
it back. -/
def rollbackFuel : Nat → HandState → HandState
  | 0, h => h
  | n + 1, h =>
    match h.stack with
    | some c :: rest => rollbackFuel n (putCard { h with stack := rest } c)
    | _ => h

/-- `Hand.rollback`: put back all cards above the topmost sentinel; the
sentinel itself is not popped. -/
def rollback (h : HandState) : HandState :=
  rollbackFuel h.stack.length h

/-- Modelled from the spec: `Hand.take_combo`, which `generation.py` calls
(`hand.take_combo(combo)` in `take_committed`) but whose definition is not
part of the sources; per the spec the composer speculatively takes a combo
by taking each of its cards in order, and a failed take surfaces
`InvalidTake` leaving the earlier takes on the stack.  Returns the state
reached together with a success flag. -/
def takeCombo (h : HandState) (cs : List Card) : HandState × Bool :=
  match cs with
  | [] => (h, true)
  | c :: rest =>
    match takeCard h c with
    | none => (h, false)
    | some (h', _) => takeCombo h' rest

/-- The freshly initialized empty state built by `Hand.__init__` together
with `IndexedHand.__init__`: zeroed counts and indices and the initial
sentinel on the take-stack. -/
def handBase : HandState where
  cards := List.replicate 124 0
  jokers := 0
  stack := [none]
  rundex := List.replicate 4 (List.replicate 15 0)
  setdices := List.replicate 15 (List.replicate 4 0)
  rundexen := List.replicate 4 (List.replicate 15 0)
  setdexen := List.replicate 15 0

/-- `Hand.__init__(cards)` / `IndexedHand.__init__(cards)`.  The source
iterates `self.cards` — the count dictionary created empty two lines
earlier — rather than the `cards` parameter, so the loop body runs zero
times and no card of the argument is ingested; the constructor ends with
`self.commit()`. -/
def handInit (cards : List Card) : HandState :=
  commit (List.foldl putCard handBase [])

/-- Repeated `put_card`, used to assemble concrete hands the way the tests
do. -/
def putCards (h : HandState) (cs : List Card) : HandState :=
  cs.foldl putCard h

/-- A small concrete hand: 2♣, 7♥ and a joker put into a fresh hand. -/
def handDemo : HandState :=
  putCards (handInit []) [Card.of 2 0 false, Card.of 7 2 false, Card.JOKER]

/-- A concrete hand holding exactly one unmaterialized joker. -/
def handOneJoker : HandState :=
  putCard (handInit []) Card.JOKER

/-! ## Set enumeration (`liverpool/generation.py`) -/

/-- Python list/tuple comparison on integer lists: lexicographic, a strict
prefix is smaller. -/
def lexLtZ : List Int → List Int → Bool
  | [], [] => false
  | [], _ :: _ => true
  | _ :: _, [] => false
  | a :: as, b :: bs => if a < b then true else if b < a then false else lexLtZ as bs

/-- `orderable_colors_with_none`: the sort key mapping `None` (a joker
slot) to `-1` so that tuples with `None` entries are comparable. -/
def orderableColorsWithNone (tup : List (Option Nat)) : List Int :=
  tup.map (fun v => match v with | none => -1 | some c => (c : Int))

/-- The total preorder used by `sorted(..., key=orderable_colors_with_none)`:
`a` precedes `b` unless the key of `b` is strictly smaller. -/
def setKeyLe (a b : List (Option Nat)) : Prop :=
  lexLtZ (orderableColorsWithNone b) (orderableColorsWithNone a) = false

instance setKeyLe.dec : DecidableRel setKeyLe := fun a b =>
  inferInstanceAs (Decidable (_ = false))

/-- `Setdex.__iter__`: decode a packed `Setdex.value`, yielding each color
`count` times in `Color.iter()` order, where `count` is the 2-bit field
`(value & (SET_MASK << (NUM_BITS * color))) >> (NUM_BITS * color)`, written
here in the equivalent shift-then-mask form. -/
def setdexColors (value : Nat) : List Nat :=
  (List.range 4).flatMap (fun color =>
    List.replicate ((value >>> (2 * color)) &&& 3) color)

/-- `sets_from_colors(colors, jokers, min_size)`: prepend `jokers` `None`
slots, enumerate unique combinations of every size from `min_size` to the
total length, and `sort_uniq` them under the `orderable_colors_with_none`
key. -/
def setsFromColors (colors : List (Option Nat)) (jokers : Int)
    (minSize : Nat) : List (List (Option Nat)) :=
  let jokeredColors := List.replicate jokers.toNat (none : Option Nat) ++ colors
  sortUniq setKeyLe
    ((List.range' minSize (jokeredColors.length + 1 - minSize)).flatMap
      (fun setSize => uniqueCombinations jokeredColors setSize))

/-- `Set.of(rank, colors)` composed with `Set.__init__`: materialize `None`
as a joker pinned to the default joker color SPADE, then store the cards
sorted by their encodings. -/
def setOf (rank : Nat) (combo : List (Option Nat)) : List Card :=
  List.insertionSort Card.le
    (combo.map (fun oc =>
      match oc with
      | some color => Card.of rank color false
      | none => Card.of rank 1 true))

/-- `iter_sets(hand)`: for every rank at least 2, emit `Set.of(rank, c)`
for each combination from `sets_from_colors(setdex, hand.jokers)`. -/
def iterSets (h : HandState) : List (List Card) :=
  h.setdexen.enum.flatMap (fun p =>
    if p.1 < 2 then []
    else (setsFromColors ((setdexColors p.2.toNat).map some) h.jokers 3).map
      (fun combo => setOf p.1 combo))

/-! ## Run enumeration (`liverpool/generation.py`) -/

/-- The scanning loop of `interleave`: over the ranks `start..end`, reject
a rank lying in both or in neither vector, and record whether each rank is
a joker position (not in the card vector). -/
def interleaveScan (cv jv : List Nat) : List Nat → Option (List Bool)
  | [] => some []
  | r :: rs =>
    if r ∈ cv ∧ r ∈ jv then none
    else if ¬ r ∈ cv ∧ ¬ r ∈ jv then none
    else (interleaveScan cv jv rs).map (fun bs => decide (¬ r ∈ cv) :: bs)

/-- The `start` local of `interleave`: `min(card_vector)`, also lowered by
`min(joker_vector)` when the joker vector is nonempty. -/
def vecMin (c : Nat) (cs jv : List Nat) : Nat :=
  match jv with
  | [] => cs.foldl min c
  | j :: js => min (cs.foldl min c) (js.foldl min j)

/-- The `end` local of `interleave`: `max(card_vector)`, also raised by
`max(joker_vector)` when the joker vector is nonempty. -/
def vecMax (c : Nat) (cs jv : List Nat) : Nat :=
  match jv with
  | [] => cs.foldl max c
  | j :: js => max (cs.foldl max c) (js.foldl max j)

/-- `interleave(card_vector, joker_vector)`: compute the extremes of the
two vectors and scan the enclosed rank range; `none` models the raised
`ValueError` (also the case of an empty card vector, where Python `min`
raises). -/
def interleave (cv jv : List Nat) : Option (Nat × List Bool) :=
  match cv with
  | [] => none
  | c :: cs =>
    (interleaveScan cv jv
        (List.range' (vecMin c cs jv) (vecMax c cs jv + 1 - vecMin c cs jv))).map
      (fun bs => (vecMin c cs jv, bs))

/-- `[rank for rank, count in enumerate(rundex) if count]`: the ranks with
a nonzero count. -/
def ranksList (rundex : List Int) : List Nat :=
  (rundex.enum.filter (fun p => decide (p.2 ≠ 0))).map Prod.fst

/-- Python tuple comparison on `(start, jokers)` run records: by start
rank, then lexicographically on the joker tuple (`False < True`). -/
def lexLtBool : List Bool → List Bool → Bool
  | [], [] => false
  | [], _ :: _ => true
  | _ :: _, [] => false
  | a :: as, b :: bs => if a = b then lexLtBool as bs else b

/-- Strict tuple comparison for run records. -/
def runLtTuple (a b : Nat × List Bool) : Bool :=
  if a.1 < b.1 then true else if b.1 < a.1 then false else lexLtBool a.2 b.2

/-- The total preorder used by `sort_uniq` on run records. -/
def runLe (a b : Nat × List Bool) : Prop :=
  runLtTuple b a = false

instance runLe.dec : DecidableRel runLe := fun a b =>
  inferInstanceAs (Decidable (_ = false))

/-- `ranks_from_rundex(rundex, jokers)`: for every joker budget up to
`min(3, jokers)`, every selection size from `Run.MIN - num_jokers` to the
number of present ranks, every unique combination of present ranks and
every unique combination of joker ranks from `Rank.iter()`, try to
interleave them into a contiguous run and keep results of length at least
`Run.MIN = 4`; finally `sort_uniq` the collected `(start, jokers)` pairs.
`interleaveChecked` is the loop body (the `try` around `interleave` with
`except ValueError: continue`, plus the `Run.MIN` length check). -/
def interleaveChecked (selectedCards jokerVector : List Nat) :
    Option (Nat × List Bool) :=
  match interleave selectedCards jokerVector with
  | none => none
  | some (start, jokerOut) =>
    if jokerOut.length < 4 then none else some (start, jokerOut)

def ranksFromRundex (rundex : List Int) (jokers : Int) :
    List (Nat × List Bool) :=
  let totalJokers : Int := min 3 jokers
  let ranks := ranksList rundex
  sortUniq runLe
    ((List.range (totalJokers + 1).toNat).flatMap (fun numJokers =>
      (List.range' (4 - numJokers) (ranks.length + 1 - (4 - numJokers))).flatMap
        (fun rankSelection =>
          (uniqueCombinations ranks rankSelection).flatMap (fun selectedCards =>
            (uniqueCombinations (List.range' 2 13) numJokers).filterMap
              (fun jokerVector =>
                interleaveChecked selectedCards jokerVector)))))

/-- `Run.of(color, start, jokers)`: the cards
`Card.of(start + offset, color, joker)` in offset order. -/
def runOf (color start : Nat) (jokerList : List Bool) : List Card :=
  jokerList.enum.map (fun p => Card.of (start + p.1) color p.2)

/-- `iter_runs(hand)`: for every color in `Color.iter()` order, materialize
each `(start, jokers)` record of `ranks_from_rundex` into a `Run`. -/
def iterRuns (h : HandState) : List (List Card) :=
  (List.range 4).flatMap (fun color =>
    (ranksFromRundex (h.rundexen.getD color []) h.jokers).map
      (fun p => runOf color p.1 p.2))

/-! ## LUT-backed enumeration (`liverpool/generation.py`) -/

/-- `rundex_to_vector`: fold the rundex into a presence bitmask with one
bit per rank, bit `k - Rank.MIN` for rank `k` (call sites only present
rundexes whose nonzero counts sit at ranks 2..14, where the Python shift
`1 << (k - 2)` is the embedded `2 ^ (k - 2)`). -/
def rundexToVector (rundex : List Int) : Nat :=
  rundex.enum.foldl
    (fun value p =>
      if p.2 ≠ (0 : Int) then value ||| (1 <<< (p.1 - 2)) else value) 0

/-- `vector_to_rundex`: expand a presence bitmask back into a 15-entry
0/1 rundex (ranks below `Rank.MIN` are 0). -/
def vectorToRundex (vector : Nat) : List Int :=
  (List.range 15).map (fun k =>
    if k < 2 then 0 else if vector.testBit (k - 2) then 1 else 0)

/-- `_SET_LUT` as built by `precompute_luts`: for every joker budget 0..3
and every `Setdex.value` 0..255, the list `sets_from_colors(setdex,
total_jokers)`. -/
def setLutTable : List (List (List (List (Option Nat)))) :=
  (List.range 4).map (fun (totalJokers : Nat) =>
    (List.range 256).map (fun v =>
      setsFromColors ((setdexColors v).map some) (totalJokers : Int) 3))

/-- `_RUN_LUT` as built by `precompute_luts`: for every joker budget 0..3
and every 13-bit rank presence vector, the list
`ranks_from_rundex(vector_to_rundex(v), total_jokers)`. -/
def runLutTable : List (List (List (Nat × List Bool))) :=
  (List.range 4).map (fun (totalJokers : Nat) =>
    (List.range 8192).map (fun v =>
      ranksFromRundex (vectorToRundex v) (totalJokers : Int)))

/-- `iter_sets_lut(hand)`: like `iter_sets` but reading the combinations
from `_SET_LUT[min(_SET_LUT_MAX_JOKERS, hand.jokers)][setdex.value]`. -/
def iterSetsLut (h : HandState) : List (List Card) :=
  h.setdexen.enum.flatMap (fun p =>
    if p.1 < 2 then []
    else (((setLutTable.getD (min 3 h.jokers).toNat []).getD p.2.toNat []).map
      (fun combo => setOf p.1 combo)))

/-- `iter_runs_lut(hand)`: like `iter_runs` but reading the run records
from `_RUN_LUT[min(hand.jokers, _RUN_LUT_MAX_JOKERS)][rundex_to_vector]`. -/
def iterRunsLut (h : HandState) : List (List Card) :=
  (List.range 4).flatMap (fun color =>
    ((runLutTable.getD (min h.jokers 3).toNat []).getD
        (rundexToVector (h.rundexen.getD color [])) []).map
      (fun p => runOf color p.1 p.2))

/-! ## Update enumeration (`liverpool/generation.py`) -/

/-- `iter_adds(hand, set_)`: first the empty `Add`, then one `Add` per
combination of `sets_from_colors(hand.setdexen[set_.rank], jokers,
min_size=1)`, materializing `None` as a SPADE-pinned joker.  `set_.rank`
reads the first card of the (never empty) set. -/
def iterAdds (h : HandState) (set_ : List Card) : List (List Card) :=
  ([] : List Card) ::
    (setsFromColors
        ((setdexColors
            ((h.setdexen.getD (set_.headD Card.JOKER).rankNat 0).toNat)).map
          some)
        h.jokers 1).map
      (fun combo => combo.map (fun oc =>
        match oc with
        | some color => Card.of (set_.headD Card.JOKER).rankNat color false
        | none => Card.of (set_.headD Card.JOKER).rankNat 1 true))

/-- The `Extend` value type of `generation.py`: a run with a left prefix
and a right suffix. -/
structure Extend where
  run : List Card
  left : List Card
  right : List Card
deriving DecidableEq

/-- `IndexedHand.iter_color(color)`: each natural card of the color, once
per rundex count. -/
def iterColor (h : HandState) (color : Nat) : List Card :=
  (h.rundexen.getD color []).enum.flatMap (fun p =>
    List.replicate p.2.toNat (Card.of p.1 color false))

/-- `extend_from(run1, run2)`: strip the cards of `run2` strictly below
the head of `run1` into the left prefix, require the next cards to equal
`run1` exactly, and keep the remainder as the right suffix; `none` models
the raised `ValueError` (color mismatch, no overlap, or empty extension;
also the out-of-contract empty-run inputs, where Python would fail on the
first subscript). -/
def extendFrom (run1 run2 : List Card) : Option (List Card × List Card) :=
  match run1, run2 with
  | my0 :: myRest, o0 :: oRest =>
    if (my0.colorNat ≠ o0.colorNat) then none
    else
      let myCards := my0 :: myRest
      let other := o0 :: oRest
      let left := other.takeWhile (fun c => decide (c.value < my0.value))
      let rest := other.dropWhile (fun c => decide (c.value < my0.value))
      let overlap := rest.take myCards.length
      let right := rest.drop myCards.length
      if overlap ≠ myCards then none
      else if left = [] ∧ right = [] then none
      else some (left, right)
  | _, _ => none

/-- `iter_extends(hand, run)`: build a scratch hand from the same-color
cards of the hand (through the cards-dropping constructor), put back the
dematerialized run cards and the jokers, emit the no-op `Extend(run)`
first, and then every `extend_from(run, r)` for `r` produced by the run
iterator on the scratch hand, skipping the `ValueError` cases. -/
def iterExtends (h : HandState) (run : List Card) : List Extend :=
  let newHand0 := handInit (iterColor h (run.headD Card.JOKER).colorNat)
  let newHand1 := run.foldl (fun acc c => putCard acc c.dematerialized) newHand0
  let newHand := (List.range h.jokers.toNat).foldl
    (fun acc _ => putCard acc Card.JOKER) newHand1
  ⟨run, [], []⟩ ::
    (iterRuns newHand).filterMap (fun er =>
      (extendFrom run er).map (fun p => ⟨run, p.1, p.2⟩))

/-! ## Concrete hands and validity -/

/-- The hand of scenario C6: 2♠, 2♣, 2♦ and one unmaterialized joker
(put into a fresh hand the way the tests assemble hands). -/
def hand6 : HandState :=
  putCards (handInit [])
    [Card.of 2 1 false, Card.of 2 0 false, Card.of 2 3 false, Card.JOKER]

/-- A hand holding four unmaterialized jokers and nothing else. -/
def hand4J : HandState :=
  putCards (handInit []) [Card.JOKER, Card.JOKER, Card.JOKER, Card.JOKER]

/-- The hand of spec scenario 3: 2♥ 3♥ 4♥ 5♥ and a joker. -/
def hand5 : HandState :=
  putCards (handInit [])
    [Card.of 2 2 false, Card.of 3 2 false, Card.of 4 2 false,
      Card.of 5 2 false, Card.JOKER]

/-- The reachable-state invariant of an `IndexedHand` used by the
enumerator theorems: shapes of the index arrays, nonnegative counts, a
nonnegative joker count, `Setdex` values within the two-deck bound, the
rundex rows agreeing with the card counts (value `rank + 15 * color`), and
no counts at the invalid rank positions 0 and 1. -/
def ValidHand (h : HandState) : Prop :=
  0 ≤ h.jokers ∧
  h.rundexen.length = 4 ∧
  (∀ c, c < 4 → (h.rundexen.getD c []).length = 15) ∧
  h.setdexen.length = 15 ∧
  (∀ r, r < 15 → 0 ≤ h.setdexen.getD r 0 ∧ h.setdexen.getD r 0 < 256) ∧
  (∀ v, v < 124 → 0 ≤ h.cards.getD v 0) ∧
  (∀ c, c < 4 → ∀ r, r < 15 →
    (h.rundexen.getD c []).getD r 0 = h.cards.getD (r + 15 * c) 0) ∧
  (∀ c, c < 4 →
    (h.rundexen.getD c []).getD 0 0 = 0 ∧ (h.rundexen.getD c []).getD 1 0 = 0)

/-- The ranks of the positions of `jokerList` carrying the boolean `b`,
offset by `start`; the bridge between a `(start, jokers)` run record and
the card/joker vectors that `interleave` consumed to produce it. -/
def posRanks (start : Nat) (jokerList : List Bool) (b : Bool) : List Nat :=
  (jokerList.enum.filter (fun p => p.2 == b)).map (fun p => start + p.1)

/-- A run assemblable from the hand in the sense of the `iter_runs`
contract: at least 4 contiguous ranks of one color inside `[2, 14]`, at
most `min(hand.jokers, 3)` joker positions, and every natural position
backed by a card of the hand. -/
def IsAssemblableRun (h : HandState) (color start : Nat)
    (jokerList : List Bool) : Prop :=
  color < 4 ∧ 4 ≤ jokerList.length ∧ 2 ≤ start ∧
  start + jokerList.length ≤ 15 ∧
  (jokerList.count true : Int) ≤ min 3 h.jokers ∧
  (∀ i, i < jokerList.length → jokerList.getD i true = false →
    1 ≤ h.cards.getD (start + i + 15 * color) 0)

end Liverpool

namespace Liverpool

/-! ## Theorems: helper lemmas for `uniq` and `sortUniq` -/

theorem uniqGo_subset {α : Type} [DecidableEq α] {a : α} :
    ∀ (last : Option α) (l : List α), a ∈ uniqGo last l → a ∈ l := by
  intro last l
  induction l generalizing last with
  | nil => simp [uniqGo]
  | cons x xs ih =>
    simp only [uniqGo]
    split
    · intro h
      exact List.mem_cons_of_mem _ (ih _ h)
    · intro h
      rcases List.mem_cons.1 h with h | h
      · exact h ▸ List.mem_cons_self _ _
      · exact List.mem_cons_of_mem _ (ih _ h)

theorem mem_uniqGo_of_mem {α : Type} [DecidableEq α] {a : α} :
    ∀ (last : Option α) (l : List α), a ∈ l →
      some a = last ∨ a ∈ uniqGo last l := by
  intro last l
  induction l generalizing last with
  | nil => simp
  | cons x xs ih =>
    intro h
    rcases List.mem_cons.1 h with rfl | h
    · simp only [uniqGo]
      split
      · exact Or.inl (by assumption)
      · exact Or.inr (List.mem_cons_self _ _)
    · simp only [uniqGo]
      split
      · exact ih _ h
      · rcases ih (some x) h with h' | h'
        · exact Or.inr (Option.some_inj.1 h' ▸ List.mem_cons_self _ _)
        · exact Or.inr (List.mem_cons_of_mem _ h')

theorem mem_uniq {α : Type} [DecidableEq α] {a : α} {l : List α} :
    a ∈ uniq l ↔ a ∈ l := by
  constructor
  · exact uniqGo_subset none l
  · intro h
    rcases mem_uniqGo_of_mem none l h with h' | h'
    · exact absurd h' (by simp)
    · exact h'

theorem mem_sortUniq {α : Type} (r : α → α → Prop) [DecidableRel r]
    [DecidableEq α] {a : α} {l : List α} :
    a ∈ sortUniq r l ↔ a ∈ l := by
  unfold sortUniq
  rw [mem_uniq]
  exact (List.perm_insertionSort r l).mem_iff

theorem uniqGo_sorted {α : Type} [LinearOrder α] :
    ∀ (l : List α) (last : Option α), l.Sorted (· ≤ ·) →
      (∀ a, last = some a → ∀ y ∈ l, a ≤ y) →
      (uniqGo last l).Sorted (· < ·) ∧
        (∀ x ∈ uniqGo last l, ∀ a, last = some a → a < x) := by
  intro l
  induction l with
  | nil => simp [uniqGo]
  | cons x xs ih =>
    intro last hsort hlast
    have hx : ∀ y ∈ xs, x ≤ y := (List.sorted_cons.1 hsort).1
    have hxs : xs.Sorted (· ≤ ·) := (List.sorted_cons.1 hsort).2
    simp only [uniqGo]
    split
    · have heq : some x = last := by assumption
      refine ih last hxs ?_
      intro a ha y hy
      exact hlast a ha y (List.mem_cons_of_mem _ hy)
    · have hne : ¬ some x = last := by assumption
      obtain ⟨ihs, ihb⟩ := ih (some x) hxs (by
        intro a ha y hy
        exact (Option.some_inj.1 ha) ▸ hx y hy)
      constructor
      · exact List.sorted_cons.2 ⟨fun y hy => ihb y hy x rfl, ihs⟩
      · intro z hz a ha
        have hax : a ≤ x := by
          subst ha
          rcases hlast a rfl x (List.mem_cons_self _ _) with h
          exact h
        have haxne : a ≠ x := by
          intro h
          exact hne (by rw [ha, h])
        rcases List.mem_cons.1 hz with rfl | hz
        · exact lt_of_le_of_ne hax haxne
        · exact lt_of_le_of_lt (lt_of_le_of_ne hax haxne).le (ihb z hz x rfl)

theorem uniqGo_replicate {α : Type} [DecidableEq α] (a : α) :
    ∀ (n : Nat) (rest : List α),
      uniqGo (some a) (List.replicate n a ++ rest) = uniqGo (some a) rest := by
  intro n
  induction n with
  | zero => simp
  | succ n ih =>
    intro rest
    rw [List.replicate_succ, List.cons_append]
    simp only [uniqGo, if_pos rfl]
    exact ih rest

theorem uniqGo_expandGroups {α : Type} [DecidableEq α] :
    ∀ (gs : List (α × Nat)) (last : Option α),
      (∀ p ∈ gs, last ≠ some p.1) → (gs.map Prod.fst).Nodup →
      uniqGo last (expandGroups gs) = gs.map Prod.fst := by
  intro gs
  induction gs with
  | nil => simp [expandGroups, uniqGo]
  | cons p gs ih =>
    intro last hlast hnd
    obtain ⟨a, n⟩ := p
    have : expandGroups ((a, n) :: gs) =
        a :: (List.replicate n a ++ expandGroups gs) := by
      simp [expandGroups, List.replicate_succ]
    rw [this]
    simp only [uniqGo]
    rw [if_neg (fun h => hlast (a, n) (List.mem_cons_self _ _) h.symm)]
    rw [uniqGo_replicate]
    have hnd0 : (a :: gs.map Prod.fst).Nodup := by simpa using hnd
    have hnd' := List.nodup_cons.1 hnd0
    rw [ih (some a) ?_ hnd'.2]
    · simp
    · intro q hq h
      have hmem : q.1 ∈ gs.map Prod.fst := List.mem_map_of_mem Prod.fst hq
      rw [← Option.some_inj.1 h] at hmem
      exact hnd'.1 hmem

/-! ## Theorems: helper lemmas for list count arrays -/

theorem set_oor {α : Type} :
    ∀ (l : List α) (i : Nat), l.length ≤ i → ∀ (v : α), l.set i v = l := by
  intro l
  induction l with
  | nil => intro i _ v; rfl
  | cons x xs ih =>
    intro i hi v
    cases i with
    | zero => exact absurd hi (by simp)
    | succ i =>
      show x :: xs.set i v = x :: xs
      rw [ih i (by simpa using hi)]

theorem set_getD_self {α : Type} :
    ∀ (l : List α) (i : Nat) (d : α), l.set i (l.getD i d) = l := by
  intro l
  induction l with
  | nil => intro i d; rfl
  | cons x xs ih =>
    intro i d
    cases i with
    | zero => rfl
    | succ i =>
      show x :: xs.set i (xs.getD i d) = x :: xs
      rw [ih i d]

theorem getD_set_eq {α : Type} :
    ∀ (l : List α) (i : Nat), i < l.length →
      ∀ (v d : α), (l.set i v).getD i d = v := by
  intro l
  induction l with
  | nil => intro i hi; exact absurd hi (by simp)
  | cons x xs ih =>
    intro i hi v d
    cases i with
    | zero => rfl
    | succ i =>
      show (xs.set i v).getD i d = v
      exact ih i (by simpa using hi) v d

theorem bump_bump (l : List Int) (i : Nat) (a b : Int) :
    bump (bump l i a) i b = bump l i (a + b) := by
  by_cases hi : i < l.length
  · unfold bump
    rw [getD_set_eq l i hi, List.set_set]
    ring_nf
  · have hle : l.length ≤ i := Nat.le_of_not_lt hi
    unfold bump
    rw [set_oor l i hle, set_oor l i hle, set_oor l i hle]

theorem bump_zero (l : List Int) (i : Nat) : bump l i 0 = l := by
  unfold bump
  rw [Int.add_zero]
  exact set_getD_self l i 0

theorem bump2_bump2 (m : List (List Int)) (i j : Nat) (a b : Int) :
    bump2 (bump2 m i j a) i j b = bump2 m i j (a + b) := by
  by_cases hi : i < m.length
  · unfold bump2
    rw [getD_set_eq m i hi, List.set_set, bump_bump]
  · have hle : m.length ≤ i := Nat.le_of_not_lt hi
    unfold bump2
    rw [set_oor m i hle, set_oor m i hle, set_oor m i hle]

theorem bump2_zero (m : List (List Int)) (i j : Nat) : bump2 m i j 0 = m := by
  unfold bump2
  rw [bump_zero]
  exact set_getD_self m i []

/-! ## Theorems: the take/rollback round trip -/

theorem takeCard_inv (h : HandState) (c : Card) (h' : HandState) (tc : Card)
    (ht : takeCard h c = some (h', tc)) :
    h'.stack = some tc :: h.stack ∧
      putCard { h' with stack := h.stack } tc = h := by
  unfold takeCard at ht
  by_cases hcond : c.value = 64 ∨ h.cards.getD c.value 0 ≤ 0
  · rw [if_pos hcond] at ht
    by_cases hj : h.jokers = 0
    · rw [if_pos hj] at ht
      exact absurd ht (by simp)
    · rw [if_neg hj] at ht
      have hpair := Option.some_inj.1 ht
      rw [Prod.ext_iff] at hpair
      obtain ⟨hh, htc⟩ := hpair
      subst hh
      subst htc
      refine ⟨rfl, ?_⟩
      show putCard { h with jokers := h.jokers - 1 } Card.JOKER = h
      have h64 : Card.JOKER.value = 64 := rfl
      unfold putCard
      rw [if_pos h64]
      rw [HandState.ext_iff]
      refine ⟨rfl, ?_, rfl, rfl, rfl, rfl, rfl⟩
      show h.jokers - 1 + 1 = h.jokers
      omega
  · rw [if_neg hcond] at ht
    push_neg at hcond
    obtain ⟨hc64, _⟩ := hcond
    have hpair := Option.some_inj.1 ht
    rw [Prod.ext_iff] at hpair
    obtain ⟨hh, htc⟩ := hpair
    subst hh
    subst htc
    refine ⟨rfl, ?_⟩
    unfold putCard
    rw [if_neg hc64]
    have hcards : bump (bump h.cards c.value (-1)) c.value 1 = h.cards := by
      rw [bump_bump]
      exact bump_zero _ _
    have hrdx : bump2 (bump2 h.rundex c.colorNat c.rankNat (-1))
        c.colorNat c.rankNat 1 = h.rundex := by
      rw [bump2_bump2]
      exact bump2_zero _ _ _
    have hsdc : bump2 (bump2 h.setdices c.rankNat c.colorNat (-1))
        c.rankNat c.colorNat 1 = h.setdices := by
      rw [bump2_bump2]
      exact bump2_zero _ _ _
    by_cases hjk : c.isJoker = true
    · refine HandState.ext ?_ rfl rfl ?_ ?_ ?_ ?_
      · exact hcards
      · exact hrdx
      · exact hsdc
      · show (if c.isJoker = true then
            (if c.isJoker = true then h.rundexen
              else bump2 h.rundexen c.colorNat c.rankNat (-1))
            else bump2 (if c.isJoker = true then h.rundexen
              else bump2 h.rundexen c.colorNat c.rankNat (-1))
              c.colorNat c.rankNat 1) = h.rundexen
        rw [if_pos hjk, if_pos hjk]
      · show (if c.isJoker = true then
            (if c.isJoker = true then h.setdexen
              else bump h.setdexen c.rankNat (-(4 ^ c.colorNat)))
            else bump (if c.isJoker = true then h.setdexen
              else bump h.setdexen c.rankNat (-(4 ^ c.colorNat)))
              c.rankNat (4 ^ c.colorNat)) = h.setdexen
        rw [if_pos hjk, if_pos hjk]
    · refine HandState.ext ?_ rfl rfl ?_ ?_ ?_ ?_
      · exact hcards
      · exact hrdx
      · exact hsdc
      · show (if c.isJoker = true then
            (if c.isJoker = true then h.rundexen
              else bump2 h.rundexen c.colorNat c.rankNat (-1))
            else bump2 (if c.isJoker = true then h.rundexen
              else bump2 h.rundexen c.colorNat c.rankNat (-1))
              c.colorNat c.rankNat 1) = h.rundexen
        rw [if_neg hjk, if_neg hjk, bump2_bump2]
        exact bump2_zero _ _ _
      · show (if c.isJoker = true then
            (if c.isJoker = true then h.setdexen
              else bump h.setdexen c.rankNat (-(4 ^ c.colorNat)))
            else bump (if c.isJoker = true then h.setdexen
              else bump h.setdexen c.rankNat (-(4 ^ c.colorNat)))
              c.rankNat (4 ^ c.colorNat)) = h.setdexen
        rw [if_neg hjk, if_neg hjk, bump_bump, Int.add_left_neg]
        exact bump_zero _ _

theorem rollback_takeCard (h : HandState) (c : Card) (h' : HandState)
    (tc : Card) (ht : takeCard h c = some (h', tc)) :
    rollback h' = rollback h := by
  obtain ⟨hstack, hput⟩ := takeCard_inv h c h' tc ht
  show rollbackFuel h'.stack.length h' = rollback h
  rw [hstack]
  show rollbackFuel (h.stack.length + 1) h' = rollback h
  rw [rollbackFuel, hstack]
  show rollbackFuel h.stack.length (putCard { h' with stack := h.stack } tc) =
    rollback h
  rw [hput]
  rfl

theorem rollback_of_top_sentinel (h : HandState)
    (hs : h.stack.head? = some none) : rollback h = h := by
  unfold rollback
  cases hcase : h.stack with
  | nil => rw [hcase] at hs; exact absurd hs (by simp)
  | cons top rest =>
    rw [hcase] at hs
    have htop : top = none := by simpa using hs
    subst htop
    show rollbackFuel (rest.length + 1) h = h
    rw [rollbackFuel]
    rw [hcase]

theorem rollback_takeCombo (cs : List Card) :
    ∀ h : HandState, rollback (takeCombo h cs).1 = rollback h := by
  induction cs with
  | nil => intro h; rfl
  | cons c rest ih =>
    intro h
    simp only [takeCombo]
    cases ht : takeCard h c with
    | none => rfl
    | some p =>
      obtain ⟨h', tc⟩ := p
      show rollback (takeCombo h' rest).1 = rollback h
      rw [ih h', rollback_takeCard h c h' tc ht]

/-! ## Claim theorems: C1, C2, C3 -/

/-- C1: speculatively taking any combo (each card in order, via the
spec-modelled `take_combo`) and then rolling back restores the hand to
exactly its prior state — all card counts, the joker count, the stack
(including the topmost sentinel, which is not popped) and all derived
indices — both when every take succeeds and when a take fails midway. -/
theorem take_combo_rollback_roundtrip (h : HandState) (cs : List Card)
    (hs : h.stack.head? = some none) :
    rollback (takeCombo h cs).1 = h := by
  rw [rollback_takeCombo cs h, rollback_of_top_sentinel h hs]

/-- C1 witness: the round trip at a concrete three-card hand, taking a
present card, then a joker, then a card that forces a failed take. -/
theorem take_combo_rollback_roundtrip_witness :
    handDemo.stack.head? = some none ∧
      rollback
        (takeCombo handDemo
          [Card.of 7 2 false, Card.JOKER, Card.of 5 1 false]).1 = handDemo :=
  ⟨by decide,
    take_combo_rollback_roundtrip handDemo
      [Card.of 7 2 false, Card.JOKER, Card.of 5 1 false] (by decide)⟩

/-- C2 counterexample: the claim says `take_card` on a card whose count is
zero fails with `InvalidTake` and never implicitly substitutes a joker.  On
a hand holding one joker and no 2♠, `take_card(2♠)` does not fail — it
implicitly takes the joker (returning it and dropping the joker count to
zero). -/
theorem take_card_zero_count_substitutes_joker :
    (takeCard handOneJoker (Card.of 2 1 false)).map Prod.snd =
        some Card.JOKER ∧
      (takeCard handOneJoker (Card.of 2 1 false)).map
          (fun p => p.1.jokers) = some 0 := by
  decide

/-- C2 amended: for a non-joker card `c`, if the count of `c` is positive,
`take_card` decrements it, pushes `c` and returns `c` (joker count
untouched); if the count is not positive, the take implicitly substitutes a
joker — it fails with `InvalidTake` (changing nothing) only when the hand
also holds no joker, and otherwise decrements the joker count and pushes
and returns the joker. -/
theorem take_card_cases (h : HandState) (c : Card) (hc : c.value ≠ 64) :
    (0 < h.cards.getD c.value 0 →
      ∃ h', takeCard h c = some (h', c) ∧
        h'.cards.getD c.value 0 = h.cards.getD c.value 0 - 1 ∧
        h'.stack = some c :: h.stack ∧ h'.jokers = h.jokers) ∧
    (h.cards.getD c.value 0 ≤ 0 → h.jokers = 0 → takeCard h c = none) ∧
    (h.cards.getD c.value 0 ≤ 0 → h.jokers ≠ 0 →
      takeCard h c =
        some ({ h with jokers := h.jokers - 1,
                       stack := some Card.JOKER :: h.stack }, Card.JOKER)) := by
  refine ⟨?_, ?_, ?_⟩
  · intro hpos
    have hcond : ¬ (c.value = 64 ∨ h.cards.getD c.value 0 ≤ 0) := by
      push_neg
      exact ⟨hc, hpos⟩
    have hlen : c.value < h.cards.length := by
      by_contra hge
      have : h.cards.getD c.value 0 = 0 := by
        rw [List.getD_eq_getElem?_getD,
          List.getElem?_eq_none (Nat.le_of_not_lt hge)]
        rfl
      omega
    refine ⟨{ h with
        cards := bump h.cards c.value (-1)
        rundex := bump2 h.rundex c.colorNat c.rankNat (-1)
        setdices := bump2 h.setdices c.rankNat c.colorNat (-1)
        rundexen :=
          if c.isJoker then h.rundexen
          else bump2 h.rundexen c.colorNat c.rankNat (-1)
        setdexen :=
          if c.isJoker then h.setdexen
          else bump h.setdexen c.rankNat (-(4 ^ c.colorNat))
        stack := some c :: h.stack }, ?_, ?_, rfl, rfl⟩
    · unfold takeCard
      rw [if_neg hcond]
    · show (bump h.cards c.value (-1)).getD c.value 0 =
        h.cards.getD c.value 0 - 1
      unfold bump
      rw [getD_set_eq h.cards c.value hlen]
      omega
  · intro hz hj
    unfold takeCard
    rw [if_pos (Or.inr hz), if_pos hj]
  · intro hz hj
    unfold takeCard
    rw [if_pos (Or.inr hz), if_neg hj]

/-- C2 witness: the amended case analysis at a concrete hand holding 2♣
and a joker, taking the present card 2♣. -/
theorem take_card_cases_witness :
    (Card.of 2 0 false).value ≠ 64 ∧
      (0 < handDemo.cards.getD (Card.of 2 0 false).value 0 →
        ∃ h', takeCard handDemo (Card.of 2 0 false) =
            some (h', Card.of 2 0 false) ∧
          h'.cards.getD (Card.of 2 0 false).value 0 =
            handDemo.cards.getD (Card.of 2 0 false).value 0 - 1 ∧
          h'.stack = some (Card.of 2 0 false) :: handDemo.stack ∧
          h'.jokers = handDemo.jokers) ∧
      (handDemo.cards.getD (Card.of 2 0 false).value 0 ≤ 0 →
        handDemo.jokers = 0 → takeCard handDemo (Card.of 2 0 false) = none) ∧
      (handDemo.cards.getD (Card.of 2 0 false).value 0 ≤ 0 →
        handDemo.jokers ≠ 0 →
        takeCard handDemo (Card.of 2 0 false) =
          some ({ handDemo with jokers := handDemo.jokers - 1,
                                stack := some Card.JOKER :: handDemo.stack },
            Card.JOKER)) :=
  ⟨by decide, take_card_cases handDemo (Card.of 2 0 false) (by decide)⟩

/-- C3: evaluation of the constructor at a one-card list.  `Hand.__init__`
iterates the freshly created empty count dictionary instead of its `cards`
argument, so constructing a hand from `[2♠]` yields the empty hand: the
count of 2♠ is 0, not 1, refuting the claim that the constructed hand
carries exactly the multiset of the argument. -/
theorem hand_init_drops_cards :
    handInit [Card.of 2 1 false] = handInit [] ∧
      (handInit [Card.of 2 1 false]).cards.getD (Card.of 2 1 false).value 0 =
        0 := by
  decide

/-! ## Claim theorems: C7, C9, C10 -/

/-- C7 counterexample: the claim says the unmaterialized joker is the
smallest card under the total order of `Card.__lt__`.  It is not: the joker
encodes as `64`, above every natural card (all of which encode below `60`);
already `joker < 2♣` fails while `2♣ < joker` holds. -/
theorem joker_not_smallest :
    ¬ Card.lt Card.JOKER (Card.of 2 0 false) ∧
      Card.lt (Card.of 2 0 false) Card.JOKER := by
  decide

/-- C7 amended: under the total order on the 7-bit encodings the
unmaterialized joker is the LARGEST card: every natural (non-joker) card is
strictly below `Card.joker()`. -/
theorem joker_largest (rank color : Nat)
    (h2 : 2 ≤ rank) (h14 : rank ≤ 14) (hc : color ≤ 3) :
    Card.lt (Card.of rank color false) Card.JOKER := by
  simp only [Card.lt, Card.of, Card.JOKER, if_neg Bool.false_ne_true]
  omega

/-- C7 witness: the amended statement at the concrete natural card A♦. -/
theorem joker_largest_witness :
    Card.lt (Card.of 14 3 false) Card.JOKER :=
  joker_largest 14 3 (by decide) (by decide) (by decide)

/-- C9: `sort_uniq` yields the distinct elements of its input in strictly
sorted order (hence each exactly once), and `uniq` applied to a sequence in
which equal elements are adjacent (given as nonempty groups with pairwise
distinct keys) yields each distinct element exactly once, in
first-occurrence order. -/
theorem sort_uniq_spec {α : Type} [LinearOrder α]
    (l : List α) (gs : List (α × Nat)) (hnd : (gs.map Prod.fst).Nodup) :
    (sortUniq (· ≤ ·) l).Sorted (· < ·) ∧
      (∀ a, a ∈ sortUniq (· ≤ ·) l ↔ a ∈ l) ∧
      uniq (expandGroups gs) = gs.map Prod.fst := by
  refine ⟨?_, fun a => mem_sortUniq _ , ?_⟩
  · simp only [sortUniq, uniq]
    exact (uniqGo_sorted (List.insertionSort (· ≤ ·) l) none
      (List.sorted_insertionSort _ l) (by simp)).1
  · exact uniqGo_expandGroups gs none (by simp) hnd

/-- C9 witness: the statement at a concrete integer list and concrete
adjacent-equal groups. -/
theorem sort_uniq_spec_witness :
    (sortUniq (· ≤ ·) [(3 : Int), 1, 2, 1]).Sorted (· < ·) ∧
      (∀ a, a ∈ sortUniq (· ≤ ·) [(3 : Int), 1, 2, 1] ↔
        a ∈ [(3 : Int), 1, 2, 1]) ∧
      uniq (expandGroups [((5 : Int), 1), (7, 0)]) =
        [(5 : Int), 7] :=
  sort_uniq_spec [(3 : Int), 1, 2, 1] [((5 : Int), 1), (7, 0)] (by decide)

/-- C10: the module-level helpers are swapped relative to the `Card`
properties.  At the natural card of rank 3 and color SPADE (encoding
`3 + 1 * 15 = 18`), `card_rank` returns the color and `card_color` returns
the rank, so the claimed agreement fails on both helpers. -/
theorem card_helpers_swapped :
    card_rank (Card.of 3 1 false).value ≠ (Card.of 3 1 false).rank ∧
      card_color (Card.of 3 1 false).value ≠ (Card.of 3 1 false).color ∧
      card_rank (Card.of 3 1 false).value = (Card.of 3 1 false).color ∧
      card_color (Card.of 3 1 false).value = (Card.of 3 1 false).rank := by
  decide

/-! ## Theorems: enumeration infrastructure -/

theorem mem_enumFrom_iff {α : Type} (x : α) :
    ∀ (l : List α) (i n : Nat),
      (i, x) ∈ List.enumFrom n l ↔ ∃ j, i = n + j ∧ l[j]? = some x := by
  intro l
  induction l with
  | nil => simp
  | cons y ys ih =>
    intro i n
    show (i, x) ∈ (n, y) :: List.enumFrom (n + 1) ys ↔ _
    rw [List.mem_cons, ih i (n + 1)]
    constructor
    · rintro (hp | ⟨j, hj, hget⟩)
      · obtain ⟨h1, h2⟩ := Prod.mk.injEq .. ▸ hp
        exact ⟨0, by omega, by simp [h2.symm]⟩
      · exact ⟨j + 1, by omega, by simpa using hget⟩
    · rintro ⟨j, hj, hget⟩
      cases j with
      | zero =>
        left
        have : y = x := by simpa using hget
        rw [Prod.mk.injEq]
        exact ⟨by omega, this.symm⟩
      | succ j =>
        right
        exact ⟨j, by omega, by simpa using hget⟩

theorem mem_enum_iff {α : Type} (x : α) (l : List α) (i : Nat) :
    (i, x) ∈ l.enum ↔ l[i]? = some x := by
  show (i, x) ∈ List.enumFrom 0 l ↔ _
  rw [mem_enumFrom_iff]
  constructor
  · rintro ⟨j, hj, hget⟩
    rwa [show i = j by omega]
  · intro h
    exact ⟨i, by omega, h⟩

theorem pairwise_fst_lt_enumFrom {α : Type} :
    ∀ (l : List α) (n : Nat),
      (List.enumFrom n l).Pairwise (fun a b => a.1 < b.1) := by
  intro l
  induction l with
  | nil => intro n; simp
  | cons y ys ih =>
    intro n
    show ((n, y) :: List.enumFrom (n + 1) ys).Pairwise _
    refine List.pairwise_cons.2 ⟨?_, ih (n + 1)⟩
    intro q hq
    have := (List.mem_enumFrom hq).1
    omega

theorem countP_enumFrom_snd {α : Type} (q : α → Bool) :
    ∀ (l : List α) (n : Nat),
      (List.enumFrom n l).countP (fun p => q p.2) = l.countP q := by
  intro l
  induction l with
  | nil => intro n; rfl
  | cons y ys ih =>
    intro n
    show List.countP _ ((n, y) :: List.enumFrom (n + 1) ys) = _
    rw [List.countP_cons, List.countP_cons, ih (n + 1)]

theorem mem_combinations {α : Type} :
    ∀ (l : List α) (k : Nat) (s : List α),
      s ∈ combinations l k ↔ s.Sublist l ∧ s.length = k := by
  intro l
  induction l with
  | nil =>
    intro k s
    cases k with
    | zero =>
      simp only [combinations, List.mem_singleton]
      constructor
      · rintro rfl
        exact ⟨List.Sublist.refl _, rfl⟩
      · rintro ⟨hs, hl⟩
        exact List.eq_nil_of_length_eq_zero hl
    | succ k =>
      simp only [combinations, List.not_mem_nil, false_iff, not_and]
      intro hs
      have := List.sublist_nil.1 hs
      subst this
      simp
  | cons x xs ih =>
    intro k s
    cases k with
    | zero =>
      simp only [combinations, List.mem_singleton]
      constructor
      · rintro rfl
        exact ⟨List.nil_sublist _, rfl⟩
      · rintro ⟨hs, hl⟩
        exact List.eq_nil_of_length_eq_zero hl
    | succ k =>
      show s ∈ ((combinations xs k).map (fun t => x :: t)) ++
          combinations xs (k + 1) ↔ _
      rw [List.mem_append, List.mem_map]
      constructor
      · rintro (⟨t, ht, rfl⟩ | hs)
        · obtain ⟨hsub, hlen⟩ := (ih k t).1 ht
          exact ⟨List.Sublist.cons₂ x hsub, by simpa using hlen⟩
        · obtain ⟨hsub, hlen⟩ := (ih (k + 1) s).1 hs
          exact ⟨List.Sublist.cons x hsub, hlen⟩
      · rintro ⟨hsub, hlen⟩
        rcases List.sublist_cons_iff.1 hsub with hs | ⟨r, rfl, hr⟩
        · exact Or.inr ((ih (k + 1) s).2 ⟨hs, hlen⟩)
        · exact Or.inl ⟨r, (ih k r).2 ⟨hr, by simpa using hlen⟩, rfl⟩

theorem mem_uniqueCombinations {α : Type} [DecidableEq α]
    (l : List α) (k : Nat) (s : List α) :
    s ∈ uniqueCombinations l k ↔ s.Sublist l ∧ s.length = k := by
  unfold uniqueCombinations
  rw [mem_uniq, mem_combinations]

theorem sublist_of_subset_pairwise_lt :
    ∀ (l₂ l₁ : List Nat), l₁.Pairwise (· < ·) → l₂.Pairwise (· < ·) →
      l₁ ⊆ l₂ → l₁.Sublist l₂ := by
  intro l₂
  induction l₂ with
  | nil =>
    intro l₁ _ _ hsub
    rw [List.subset_nil.1 hsub]
  | cons y ys ih =>
    intro l₁ h1 h2 hsub
    cases l₁ with
    | nil => exact List.nil_sublist _
    | cons x xs =>
      obtain ⟨hxlt, h1t⟩ := List.pairwise_cons.1 h1
      obtain ⟨hylt, h2t⟩ := List.pairwise_cons.1 h2
      by_cases hxy : x = y
      · subst hxy
        refine List.Sublist.cons₂ x (ih xs h1t h2t ?_)
        intro z hz
        rcases List.mem_cons.1 (hsub (List.mem_cons_of_mem _ hz)) with rfl | h
        · exact absurd (hxlt z hz) (lt_irrefl z)
        · exact h
      · have hxys : x ∈ ys := by
          rcases List.mem_cons.1 (hsub (List.mem_cons_self x xs)) with h | h
          · exact absurd h hxy
          · exact h
        refine List.Sublist.cons y (ih (x :: xs) h1 h2t ?_)
        intro z hz
        rcases List.mem_cons.1 hz with rfl | hzxs
        · exact hxys
        · rcases List.mem_cons.1 (hsub (List.mem_cons_of_mem _ hzxs)) with rfl | h
          · exact absurd (lt_trans (hylt x hxys) (hxlt z hzxs)) (lt_irrefl z)
          · exact h

theorem foldl_min_le :
    ∀ (l : List Nat) (a x : Nat), x ∈ a :: l → l.foldl min a ≤ x := by
  intro l
  induction l with
  | nil =>
    intro a x hx
    have : x = a := by simpa using hx
    simp [this]
  | cons y ys ih =>
    intro a x hx
    show ys.foldl min (min a y) ≤ x
    rcases List.mem_cons.1 hx with rfl | hx
    · exact le_trans (ih (min x y) (min x y) (List.mem_cons_self _ _))
        (min_le_left _ _)
    · rcases List.mem_cons.1 hx with rfl | hx
      · exact le_trans (ih (min a x) (min a x) (List.mem_cons_self _ _))
          (min_le_right _ _)
      · exact ih (min a y) x (List.mem_cons_of_mem _ hx)

theorem foldl_min_mem :
    ∀ (l : List Nat) (a : Nat), l.foldl min a ∈ a :: l := by
  intro l
  induction l with
  | nil => intro a; simp
  | cons y ys ih =>
    intro a
    show ys.foldl min (min a y) ∈ a :: y :: ys
    rcases List.mem_cons.1 (ih (min a y)) with h | h
    · rcases min_choice a y with hc | hc
      · rw [h, hc]
        exact List.mem_cons_self _ _
      · rw [h, hc]
        exact List.mem_cons_of_mem _ (List.mem_cons_self _ _)
    · exact List.mem_cons_of_mem _ (List.mem_cons_of_mem _ h)

theorem le_foldl_max :
    ∀ (l : List Nat) (a x : Nat), x ∈ a :: l → x ≤ l.foldl max a := by
  intro l
  induction l with
  | nil =>
    intro a x hx
    have : x = a := by simpa using hx
    simp [this]
  | cons y ys ih =>
    intro a x hx
    show x ≤ ys.foldl max (max a y)
    rcases List.mem_cons.1 hx with rfl | hx
    · exact le_trans (le_max_left _ _)
        (ih (max x y) (max x y) (List.mem_cons_self _ _))
    · rcases List.mem_cons.1 hx with rfl | hx
      · exact le_trans (le_max_right _ _)
          (ih (max a x) (max a x) (List.mem_cons_self _ _))
      · exact ih (max a y) x (List.mem_cons_of_mem _ hx)

theorem foldl_max_mem :
    ∀ (l : List Nat) (a : Nat), l.foldl max a ∈ a :: l := by
  intro l
  induction l with
  | nil => intro a; simp
  | cons y ys ih =>
    intro a
    show ys.foldl max (max a y) ∈ a :: y :: ys
    rcases List.mem_cons.1 (ih (max a y)) with h | h
    · rcases max_choice a y with hc | hc
      · rw [h, hc]
        exact List.mem_cons_self _ _
      · rw [h, hc]
        exact List.mem_cons_of_mem _ (List.mem_cons_self _ _)
    · exact List.mem_cons_of_mem _ (List.mem_cons_of_mem _ h)

theorem getD_eq_getElem {α : Type} (l : List α) (i : Nat) (h : i < l.length)
    (d : α) : l.getD i d = l[i] := by
  rw [List.getD_eq_getElem?_getD, List.getElem?_eq_getElem h]
  rfl

theorem interleaveScan_eq_some (cv jv : List Nat) :
    ∀ (rs : List Nat) (bs : List Bool),
      interleaveScan cv jv rs = some bs ↔
        ((∀ r ∈ rs, ((r ∈ cv) ↔ ¬ r ∈ jv)) ∧
          bs = rs.map (fun r => decide (¬ r ∈ cv))) := by
  intro rs
  induction rs with
  | nil =>
    intro bs
    simp only [interleaveScan, List.map_nil, List.not_mem_nil]
    constructor
    · intro h
      exact ⟨by tauto, (Option.some_inj.1 h).symm⟩
    · rintro ⟨_, rfl⟩
      rfl
  | cons r rs ih =>
    intro bs
    simp only [interleaveScan]
    by_cases h1 : r ∈ cv ∧ r ∈ jv
    · rw [if_pos h1]
      constructor
      · intro h
        exact absurd h (by simp)
      · rintro ⟨hall, _⟩
        have := hall r (List.mem_cons_self _ _)
        tauto
    · rw [if_neg h1]
      by_cases h2 : ¬ r ∈ cv ∧ ¬ r ∈ jv
      · rw [if_pos h2]
        constructor
        · intro h
          exact absurd h (by simp)
        · rintro ⟨hall, _⟩
          have := hall r (List.mem_cons_self _ _)
          tauto
      · rw [if_neg h2, Option.map_eq_some']
        constructor
        · rintro ⟨bs', hscan, rfl⟩
          obtain ⟨hall, rfl⟩ := (ih bs').1 hscan
          refine ⟨?_, by simp⟩
          intro q hq
          rcases List.mem_cons.1 hq with rfl | hq
          · tauto
          · exact hall q hq
        · rintro ⟨hall, rfl⟩
          refine ⟨rs.map (fun q => decide (¬ q ∈ cv)),
            (ih _).2 ⟨fun q hq => hall q (List.mem_cons_of_mem _ hq), rfl⟩,
            by simp⟩

theorem mem_ranksList (rd : List Int) (r : Nat) :
    r ∈ ranksList rd ↔ r < rd.length ∧ rd.getD r 0 ≠ 0 := by
  unfold ranksList
  rw [List.mem_map]
  constructor
  · rintro ⟨p, hp, rfl⟩
    obtain ⟨hpe, hpc⟩ := List.mem_filter.1 hp
    have hget : rd[p.1]? = some p.2 := (mem_enum_iff p.2 rd p.1).1 hpe
    have hlt : p.1 < rd.length := by
      obtain ⟨hh, _⟩ := List.getElem?_eq_some.1 hget
      exact hh
    refine ⟨hlt, ?_⟩
    rw [List.getD_eq_getElem?_getD, hget]
    simpa using hpc
  · rintro ⟨hlt, hne⟩
    refine ⟨(r, rd.getD r 0), List.mem_filter.2 ⟨?_, by simpa using hne⟩, rfl⟩
    apply (mem_enum_iff _ rd r).2
    rw [getD_eq_getElem rd r hlt]
    exact List.getElem?_eq_getElem hlt

theorem pairwise_ranksList (rd : List Int) :
    (ranksList rd).Pairwise (· < ·) := by
  unfold ranksList
  refine List.pairwise_map.2 ?_
  exact (pairwise_fst_lt_enumFrom rd 0).filter _

theorem mem_posRanks (start : Nat) (js : List Bool) (b : Bool) (r : Nat) :
    r ∈ posRanks start js b ↔ ∃ i, js[i]? = some b ∧ r = start + i := by
  unfold posRanks
  rw [List.mem_map]
  constructor
  · rintro ⟨p, hp, rfl⟩
    obtain ⟨hpe, hpb⟩ := List.mem_filter.1 hp
    have hget : js[p.1]? = some p.2 := (mem_enum_iff p.2 js p.1).1 hpe
    have hb : p.2 = b := by simpa using hpb
    exact ⟨p.1, by rw [← hb]; exact hget, rfl⟩
  · rintro ⟨i, hget, rfl⟩
    exact ⟨(i, b), List.mem_filter.2 ⟨(mem_enum_iff b js i).2 hget, by simp⟩,
      rfl⟩

theorem pairwise_posRanks (start : Nat) (js : List Bool) (b : Bool) :
    (posRanks start js b).Pairwise (· < ·) := by
  unfold posRanks
  refine List.pairwise_map.2 ?_
  refine List.Pairwise.imp ?_ ((pairwise_fst_lt_enumFrom js 0).filter _)
  intro a c h
  omega

theorem length_posRanks (start : Nat) (js : List Bool) (b : Bool) :
    (posRanks start js b).length = js.count b := by
  unfold posRanks
  rw [List.length_map, ← List.countP_eq_length_filter, List.count_eq_countP]
  exact countP_enumFrom_snd (fun x => x == b) js 0

theorem mem_posRanks_getElem (start : Nat) (js : List Bool) (b : Bool)
    (i : Nat) (hi : i < js.length) :
    (start + i) ∈ posRanks start js b ↔ js[i] = b := by
  rw [mem_posRanks]
  constructor
  · rintro ⟨j, hget, heq⟩
    have hij : j = i := by omega
    subst hij
    obtain ⟨_, h⟩ := List.getElem?_eq_some.1 hget
    exact h
  · intro h
    exact ⟨i, by rw [List.getElem?_eq_getElem hi, h], rfl⟩

theorem map_range'_decide_eq (start : Nat) (js : List Bool) :
    (List.range' start js.length).map
      (fun r => decide (¬ r ∈ posRanks start js false)) = js := by
  apply List.ext_getElem?
  intro n
  by_cases hn : n < js.length
  · rw [List.getElem?_map, List.getElem?_range' _ _ hn,
      List.getElem?_eq_getElem hn]
    show some (decide (¬ (start + 1 * n) ∈ posRanks start js false)) = _
    rw [Nat.one_mul]
    have hmem := mem_posRanks_getElem start js false n hn
    cases hb : js[n] with
    | false =>
      rw [hb] at hmem
      simp [hmem.2 rfl]
    | true =>
      rw [hb] at hmem
      have : ¬ (start + n) ∈ posRanks start js false := by
        intro hx
        exact absurd (hmem.1 hx) (by simp)
      simp [this]
  · rw [List.getElem?_map,
      List.getElem?_eq_none (l := List.range' start js.length)
        (by rw [List.length_range']; omega),
      List.getElem?_eq_none (by omega)]
    rfl

theorem count_true_add_count_false (js : List Bool) :
    js.count true + js.count false = js.length := by
  induction js with
  | nil => rfl
  | cons b bs ih =>
    cases b <;> simp [List.count_cons] <;> omega

theorem interleaveChecked_eq_some (sel jv : List Nat) (start : Nat)
    (js : List Bool) :
    interleaveChecked sel jv = some (start, js) ↔
      interleave sel jv = some (start, js) ∧ 4 ≤ js.length := by
  unfold interleaveChecked
  cases hi : interleave sel jv with
  | none => simp
  | some p =>
    obtain ⟨s, out⟩ := p
    show (if out.length < 4 then none else some (s, out)) = _ ↔ _
    by_cases h4 : out.length < 4
    · rw [if_pos h4]
      constructor
      · intro h
        exact absurd h (by simp)
      · rintro ⟨heq, hlen⟩
        have h2 : out = js := congrArg Prod.snd (Option.some_inj.1 heq)
        rw [← h2] at hlen
        omega
    · rw [if_neg h4]
      constructor
      · intro h
        have h2 : out = js := congrArg Prod.snd (Option.some_inj.1 h)
        refine ⟨h, ?_⟩
        rw [← h2]
        omega
      · rintro ⟨heq, _⟩
        exact heq

theorem vecMin_mem (c : Nat) (cs jv : List Nat) :
    vecMin c cs jv ∈ (c :: cs) ∨ vecMin c cs jv ∈ jv := by
  cases jv with
  | nil => exact Or.inl (foldl_min_mem cs c)
  | cons j js =>
    show min (cs.foldl min c) (js.foldl min j) ∈ _ ∨
      min (cs.foldl min c) (js.foldl min j) ∈ j :: js
    rcases min_choice (cs.foldl min c) (js.foldl min j) with hc | hc
    · rw [hc]
      exact Or.inl (foldl_min_mem cs c)
    · rw [hc]
      exact Or.inr (foldl_min_mem js j)

theorem vecMin_le (c : Nat) (cs jv : List Nat) (x : Nat)
    (hx : x ∈ (c :: cs) ∨ x ∈ jv) : vecMin c cs jv ≤ x := by
  cases jv with
  | nil =>
    rcases hx with hx | hx
    · exact foldl_min_le cs c x hx
    · exact absurd hx (by simp)
  | cons j js =>
    show min (cs.foldl min c) (js.foldl min j) ≤ x
    rcases hx with hx | hx
    · exact le_trans (min_le_left _ _) (foldl_min_le cs c x hx)
    · exact le_trans (min_le_right _ _) (foldl_min_le js j x hx)

theorem vecMax_mem (c : Nat) (cs jv : List Nat) :
    vecMax c cs jv ∈ (c :: cs) ∨ vecMax c cs jv ∈ jv := by
  cases jv with
  | nil => exact Or.inl (foldl_max_mem cs c)
  | cons j js =>
    show max (cs.foldl max c) (js.foldl max j) ∈ _ ∨
      max (cs.foldl max c) (js.foldl max j) ∈ j :: js
    rcases max_choice (cs.foldl max c) (js.foldl max j) with hc | hc
    · rw [hc]
      exact Or.inl (foldl_max_mem cs c)
    · rw [hc]
      exact Or.inr (foldl_max_mem js j)

theorem le_vecMax (c : Nat) (cs jv : List Nat) (x : Nat)
    (hx : x ∈ (c :: cs) ∨ x ∈ jv) : x ≤ vecMax c cs jv := by
  cases jv with
  | nil =>
    rcases hx with hx | hx
    · exact le_foldl_max cs c x hx
    · exact absurd hx (by simp)
  | cons j js =>
    show x ≤ max (cs.foldl max c) (js.foldl max j)
    rcases hx with hx | hx
    · exact le_trans (le_foldl_max cs c x hx) (le_max_left _ _)
    · exact le_trans (le_foldl_max js j x hx) (le_max_right _ _)

theorem interleave_posRanks (start : Nat) (js : List Bool)
    (hlen : 1 ≤ js.length) (hcnt : js.count true < js.length) :
    interleave (posRanks start js false) (posRanks start js true) =
      some (start, js) := by
  have hselLen : (posRanks start js false).length = js.count false :=
    length_posRanks start js false
  cases hsel : posRanks start js false with
  | nil =>
    rw [hsel] at hselLen
    have := count_true_add_count_false js
    simp at hselLen
    omega
  | cons c cs =>
    rw [hsel] at hselLen
    have hselMem : ∀ x ∈ (c :: cs), start ≤ x ∧ x < start + js.length := by
      intro x hx
      rw [← hsel] at hx
      obtain ⟨i, hget, rfl⟩ := (mem_posRanks start js false x).1 hx
      have hi := (List.getElem?_eq_some.1 hget).1
      omega
    have hjvMem : ∀ x ∈ posRanks start js true,
        start ≤ x ∧ x < start + js.length := by
      intro x hx
      obtain ⟨i, hget, rfl⟩ := (mem_posRanks start js true x).1 hx
      have hi := (List.getElem?_eq_some.1 hget).1
      omega
    have hz : 0 < js.length := hlen
    have h0mem : start ∈ (c :: cs) ∨ start ∈ posRanks start js true := by
      have h := mem_posRanks_getElem start js (js.get ⟨0, hz⟩) 0 hz
      rcases Bool.dichotomy (js.get ⟨0, hz⟩) with hb | hb
      · left
        rw [← hsel]
        have h' := mem_posRanks_getElem start js false 0 hz
        have : (start + 0) ∈ posRanks start js false := h'.2 hb
        simpa using this
      · right
        have h' := mem_posRanks_getElem start js true 0 hz
        have : (start + 0) ∈ posRanks start js true := h'.2 hb
        simpa using this
    have hlast : js.length - 1 < js.length := by omega
    have hEmem : (start + js.length - 1) ∈ (c :: cs) ∨
        (start + js.length - 1) ∈ posRanks start js true := by
      have harith : start + (js.length - 1) = start + js.length - 1 := by omega
      rcases Bool.dichotomy (js.get ⟨js.length - 1, hlast⟩) with hb | hb
      · left
        rw [← hsel]
        have h' := mem_posRanks_getElem start js false (js.length - 1) hlast
        have := h'.2 hb
        rwa [harith] at this
      · right
        have h' := mem_posRanks_getElem start js true (js.length - 1) hlast
        have := h'.2 hb
        rwa [harith] at this
    have hmin : vecMin c cs (posRanks start js true) = start := by
      apply le_antisymm
      · exact vecMin_le c cs _ start h0mem
      · rcases vecMin_mem c cs (posRanks start js true) with h | h
        · exact (hselMem _ h).1
        · exact (hjvMem _ h).1

    have hmax : vecMax c cs (posRanks start js true) =
        start + js.length - 1 := by
      apply le_antisymm
      · rcases vecMax_mem c cs (posRanks start js true) with h | h
        · have := hselMem _ h
          omega
        · have := hjvMem _ h
          omega
      · exact le_vecMax c cs _ _ hEmem
    show (interleaveScan (c :: cs) (posRanks start js true)
        (List.range' (vecMin c cs (posRanks start js true))
          (vecMax c cs (posRanks start js true) + 1 -
            vecMin c cs (posRanks start js true)))).map
        (fun bs => (vecMin c cs (posRanks start js true), bs)) =
      some (start, js)
    rw [hmin, hmax]
    have hrange : start + js.length - 1 + 1 - start = js.length := by omega
    rw [hrange]
    have hscan : interleaveScan (c :: cs) (posRanks start js true)
        (List.range' start js.length) = some js := by
      apply (interleaveScan_eq_some _ _ _ _).2
      constructor
      · intro r hr
        obtain ⟨i, hi, rfl⟩ := List.mem_range'.1 hr
        rw [Nat.one_mul]
        rw [← hsel]
        rw [mem_posRanks_getElem start js false i hi,
          mem_posRanks_getElem start js true i hi]
        rcases Bool.dichotomy js[i] with hb | hb
        · rw [hb]
          simp
        · rw [hb]
          simp
      · rw [← hsel]
        exact (map_range'_decide_eq start js).symm
    rw [hscan]
    rfl

theorem mem_ranksFromRundex (rd : List Int) (jokers : Int)
    (hlen : rd.length = 15) (h0 : rd.getD 0 0 = 0) (h1 : rd.getD 1 0 = 0)
    (start : Nat) (js : List Bool) :
    (start, js) ∈ ranksFromRundex rd jokers ↔
      (4 ≤ js.length ∧ 2 ≤ start ∧ start + js.length ≤ 15 ∧
        (js.count true : Int) ≤ min 3 jokers ∧
        ∀ i, i < js.length → js.getD i true = false →
          rd.getD (start + i) 0 ≠ 0) := by
  have hranks2 : ∀ x ∈ ranksList rd, 2 ≤ x ∧ x ≤ 14 := by
    intro x hx
    obtain ⟨hxlt, hxne⟩ := (mem_ranksList rd x).1 hx
    constructor
    · by_contra hcon
      have : x = 0 ∨ x = 1 := by omega
      rcases this with rfl | rfl
      · exact hxne h0
      · exact hxne h1
    · omega
  constructor
  · intro hmem
    simp only [ranksFromRundex] at hmem
    rw [mem_sortUniq] at hmem
    obtain ⟨nj, hnj, hmem⟩ := List.mem_flatMap.1 hmem
    obtain ⟨k, hk, hmem⟩ := List.mem_flatMap.1 hmem
    obtain ⟨sel, hselmem, hmem⟩ := List.mem_flatMap.1 hmem
    obtain ⟨jv, hjvmem, heq⟩ := List.mem_filterMap.1 hmem
    rw [interleaveChecked_eq_some] at heq
    obtain ⟨hint, h4⟩ := heq
    obtain ⟨hselsub, hsellen⟩ := (mem_uniqueCombinations _ _ _).1 hselmem
    obtain ⟨hjvsub, hjvlen⟩ := (mem_uniqueCombinations _ _ _).1 hjvmem
    cases hselcase : sel with
    | nil =>
      rw [hselcase] at hint
      exact absurd hint (by simp [interleave])
    | cons c cs =>
      rw [hselcase] at hint hselsub
      have hintred : (interleaveScan (c :: cs) jv
          (List.range' (vecMin c cs jv)
            (vecMax c cs jv + 1 - vecMin c cs jv))).map
          (fun bs => (vecMin c cs jv, bs)) = some (start, js) := hint
      obtain ⟨bs, hscan, hpair⟩ := Option.map_eq_some'.1 hintred
      have hstart : vecMin c cs jv = start := congrArg Prod.fst hpair
      have hbs : bs = js := congrArg Prod.snd hpair
      rw [hbs] at hscan
      obtain ⟨hxor, hjseq⟩ := (interleaveScan_eq_some _ _ _ _).1 hscan
      have hjslen : js.length = vecMax c cs jv + 1 - vecMin c cs jv := by
        rw [hjseq, List.length_map, List.length_range']
      have hselranks : ∀ x ∈ (c :: cs), 2 ≤ x ∧ x ≤ 14 := by
        intro x hx
        exact hranks2 x (hselsub.subset hx)
      have hjvranks : ∀ x ∈ jv, 2 ≤ x ∧ x ≤ 14 := by
        intro x hx
        obtain ⟨i, hi, rfl⟩ := List.mem_range'.1 (hjvsub.subset hx)
        omega
      have h2start : 2 ≤ start := by
        rcases vecMin_mem c cs jv with h | h
        · have := (hselranks _ h).1
          omega
        · have := (hjvranks _ h).1
          omega
      have hmaxle : vecMax c cs jv ≤ 14 := by
        rcases vecMax_mem c cs jv with h | h
        · exact (hselranks _ h).2
        · exact (hjvranks _ h).2
      have hlen15 : start + js.length ≤ 15 := by
        rw [← hstart]
        omega
      have hnjle : (nj : Int) ≤ min 3 jokers := by
        have := List.mem_range.1 hnj
        have hlt : (nj : Int) < min 3 jokers + 1 := Int.lt_toNat.1 this
        omega
      have hcount : js.count true ≤ nj := by
        rw [hjseq, List.count_eq_countP, List.countP_map]
        have hcc : List.countP
            ((fun x => x == true) ∘ fun r => decide (¬ r ∈ c :: cs))
            (List.range' (vecMin c cs jv)
              (vecMax c cs jv + 1 - vecMin c cs jv)) =
            List.countP (fun r => decide (¬ r ∈ c :: cs))
              (List.range' (vecMin c cs jv)
                (vecMax c cs jv + 1 - vecMin c cs jv)) := by
          apply List.countP_congr
          intro a _
          simp
        rw [hcc, List.countP_eq_length_filter]
        rw [← hjvlen]
        apply List.Sublist.length_le
        apply sublist_of_subset_pairwise_lt jv _ ?_ ?_ ?_
        · exact (List.pairwise_lt_range' _ _).filter _
        · exact (List.pairwise_lt_range' 2 13).sublist hjvsub
        · intro x hx
          obtain ⟨hxr, hxd⟩ := List.mem_filter.1 hx
          have hxnotsel : ¬ x ∈ (c :: cs) := by simpa using hxd
          have := hxor x hxr
          tauto
      have hcntcast : (js.count true : Int) ≤ min 3 jokers := by
        have : (js.count true : Int) ≤ (nj : Int) := by
          exact_mod_cast hcount
        omega
      refine ⟨h4, h2start, hlen15, hcntcast, ?_⟩
      intro i hi hfalse
      have hilt : i < vecMax c cs jv + 1 - vecMin c cs jv := by omega
      have hji : js.getD i true = decide (¬ (start + i) ∈ (c :: cs)) := by
        conv =>
          lhs
          rw [hjseq]
        rw [List.getD_eq_getElem?_getD, List.getElem?_map,
          List.getElem?_range' _ _ hilt, hstart]
        simp
      rw [hji] at hfalse
      have hsel' : (start + i) ∈ (c :: cs) :=
        not_not.1 (of_decide_eq_false hfalse)
      obtain ⟨_, hne⟩ := (mem_ranksList rd _).1 (hselsub.subset hsel')
      exact hne
  · rintro ⟨h4, h2start, hlen15, hcount, hnat⟩
    have hcntTrue3 : js.count true ≤ 3 := by omega
    have hcntlt : js.count true < js.length := by omega
    have hjvlen : (posRanks start js true).length = js.count true :=
      length_posRanks start js true
    have hsellen : (posRanks start js false).length = js.count false :=
      length_posRanks start js false
    have hsum := count_true_add_count_false js
    have hselsub : (posRanks start js false).Sublist (ranksList rd) := by
      apply sublist_of_subset_pairwise_lt _ _ (pairwise_posRanks start js false)
        (pairwise_ranksList rd)
      intro x hx
      obtain ⟨i, hget, rfl⟩ := (mem_posRanks start js false x).1 hx
      have hi := (List.getElem?_eq_some.1 hget).1
      apply (mem_ranksList rd _).2
      refine ⟨by omega, ?_⟩
      apply hnat i hi
      rw [List.getD_eq_getElem?_getD, hget]
      rfl
    have hjvsub : (posRanks start js true).Sublist (List.range' 2 13) := by
      apply sublist_of_subset_pairwise_lt _ _ (pairwise_posRanks start js true)
        (List.pairwise_lt_range' 2 13)
      intro x hx
      obtain ⟨i, hget, rfl⟩ := (mem_posRanks start js true x).1 hx
      have hi := (List.getElem?_eq_some.1 hget).1
      apply List.mem_range'.2
      refine ⟨start + i - 2, by omega, by omega⟩
    have hrl := hselsub.length_le
    simp only [ranksFromRundex]
    rw [mem_sortUniq]
    apply List.mem_flatMap.2
    refine ⟨js.count true, List.mem_range.2 ?_, ?_⟩
    · apply Int.lt_toNat.2
      omega
    apply List.mem_flatMap.2
    refine ⟨(posRanks start js false).length, List.mem_range'.2 ?_, ?_⟩
    · refine ⟨(posRanks start js false).length - (4 - js.count true),
        by omega, by omega⟩
    apply List.mem_flatMap.2
    refine ⟨posRanks start js false,
      (mem_uniqueCombinations _ _ _).2 ⟨hselsub, rfl⟩, ?_⟩
    apply List.mem_filterMap.2
    refine ⟨posRanks start js true,
      (mem_uniqueCombinations _ _ _).2 ⟨hjvsub, hjvlen⟩, ?_⟩
    rw [interleaveChecked_eq_some]
    exact ⟨interleave_posRanks start js (by omega) hcntlt, h4⟩

/-! ## Claim theorems: C6, C8 -/

/-- C6: on the hand {2♠, 2♣, 2♦, joker}, `iter_sets` yields exactly five
Sets: (in emission order) the three 3-sets in which the joker substitutes
for the diamond, the spade and the club, the natural-plus-joker 4-set, and
the natural 3-set.  Sets are card lists sorted by encoding; the joker
materializes as a SPADE-pinned joker. -/
theorem iter_sets_joker_example :
    iterSets hand6 =
      [[Card.of 2 0 false, Card.of 2 1 false, Card.of 2 1 true],
        [Card.of 2 0 false, Card.of 2 1 false, Card.of 2 3 false,
          Card.of 2 1 true],
        [Card.of 2 0 false, Card.of 2 3 false, Card.of 2 1 true],
        [Card.of 2 1 false, Card.of 2 3 false, Card.of 2 1 true],
        [Card.of 2 0 false, Card.of 2 1 false, Card.of 2 3 false]] := by
  decide

instance ValidHand.dec (h : HandState) : Decidable (ValidHand h) := by
  unfold ValidHand
  infer_instance

/-- C5: `iter_runs` yields exactly the runs assemblable from the hand: a
card list is emitted if and only if it is `Run.of(color, start, jokers)`
for a record with at least 4 contiguous ranks inside `[2, 14]`, one color,
at most `min(hand.jokers, 3)` joker positions, and every natural position
backed by a card of the hand (each natural drawn from the hand, jokers
materialized in place by `Run.of`). -/
theorem iter_runs_characterization (h : HandState) (hv : ValidHand h)
    (R : List Card) :
    R ∈ iterRuns h ↔
      ∃ color start jokerList, IsAssemblableRun h color start jokerList ∧
        R = runOf color start jokerList := by
  obtain ⟨hjok, hrlen, hrows, hslen, hsbounds, hcards, hlink, hzero⟩ := hv
  unfold iterRuns
  rw [List.mem_flatMap]
  constructor
  · rintro ⟨color, hcolor, hR⟩
    rw [List.mem_map] at hR
    obtain ⟨p, hp, hRe⟩ := hR
    obtain ⟨start, js⟩ := p
    have hcolor4 : color < 4 := List.mem_range.1 hcolor
    have hchar := (mem_ranksFromRundex _ h.jokers (hrows color hcolor4)
      (hzero color hcolor4).1 (hzero color hcolor4).2 start js).1 hp
    obtain ⟨h4, h2s, h15, hcnt, hnat⟩ := hchar
    refine ⟨color, start, js, ⟨hcolor4, h4, h2s, h15, hcnt, ?_⟩, hRe.symm⟩
    intro i hi hfalse
    have hne := hnat i hi hfalse
    have hlk := hlink color hcolor4 (start + i) (by omega)
    have hge := hcards (start + i + 15 * color) (by omega)
    rw [hlk] at hne
    omega
  · rintro ⟨color, start, js, ⟨hcolor4, h4, h2s, h15, hcnt, hnat⟩, rfl⟩
    refine ⟨color, List.mem_range.2 hcolor4, ?_⟩
    rw [List.mem_map]
    refine ⟨(start, js), ?_, rfl⟩
    apply (mem_ranksFromRundex _ h.jokers (hrows color hcolor4)
      (hzero color hcolor4).1 (hzero color hcolor4).2 start js).2
    refine ⟨h4, h2s, h15, hcnt, ?_⟩
    intro i hi hfalse
    have hge1 := hnat i hi hfalse
    rw [hlink color hcolor4 (start + i) (by omega)]
    omega

/-- C5 witness: the characterization applied to the concrete hand
2♥ 3♥ 4♥ 5♥ + joker, at the natural run 2♥–5♥. -/
theorem iter_runs_characterization_witness :
    ValidHand hand5 ∧
      (runOf 2 2 [false, false, false, false] ∈ iterRuns hand5 ↔
        ∃ color start jokerList, IsAssemblableRun hand5 color start jokerList ∧
          runOf 2 2 [false, false, false, false] =
            runOf color start jokerList) :=
  ⟨by decide,
    iter_runs_characterization hand5 (by decide)
      (runOf 2 2 [false, false, false, false])⟩

/-! ## Theorems: LUT infrastructure (C4) -/

theorem getD_range_map {α : Type} (f : Nat → α) (n i : Nat) (hi : i < n)
    (d : α) : ((List.range n).map f).getD i d = f i := by
  rw [List.getD_eq_getElem?_getD, List.getElem?_map, List.getElem?_range hi]
  rfl

theorem flatMap_congr {α β : Type} (l : List α) (f g : α → List β)
    (h : ∀ a ∈ l, f a = g a) : l.flatMap f = l.flatMap g := by
  induction l with
  | nil => rfl
  | cons x xs ih =>
    show f x ++ xs.flatMap f = g x ++ xs.flatMap g
    rw [h x (List.mem_cons_self x xs),
      ih (fun a ha => h a (List.mem_cons_of_mem _ ha))]

theorem testBit_rundexFold (b : Nat) :
    ∀ (l : List (Nat × Int)) (acc : Nat),
      ((l.foldl (fun value p =>
          if p.2 ≠ (0 : Int) then value ||| (1 <<< (p.1 - 2)) else value)
        acc).testBit b) = true ↔
        (acc.testBit b = true ∨ ∃ p ∈ l, p.2 ≠ 0 ∧ p.1 - 2 = b) := by
  intro l
  induction l with
  | nil =>
    intro acc
    simp
  | cons q qs ih =>
    intro acc
    show ((qs.foldl _
        (if q.2 ≠ (0 : Int) then acc ||| (1 <<< (q.1 - 2)) else acc)).testBit
          b) = true ↔ _
    rw [ih]
    by_cases hq : q.2 ≠ (0 : Int)
    · rw [if_pos hq, Nat.testBit_lor]
      constructor
      · rintro (hor | hex)
        · rw [Bool.or_eq_true] at hor
          rcases hor with hacc | hsh
          · exact Or.inl hacc
          · rw [Nat.one_shiftLeft] at hsh
            have hqb : q.1 - 2 = b := by
              by_contra hne
              rw [Nat.testBit_two_pow_of_ne hne] at hsh
              exact Bool.false_ne_true hsh
            exact Or.inr ⟨q, List.mem_cons_self _ _, hq, hqb⟩
        · obtain ⟨p, hp, hpne, hpb⟩ := hex
          exact Or.inr ⟨p, List.mem_cons_of_mem _ hp, hpne, hpb⟩
      · rintro (hacc | ⟨p, hp, hpne, hpb⟩)
        · refine Or.inl ?_
          rw [Bool.or_eq_true]
          exact Or.inl hacc
        · rcases List.mem_cons.1 hp with rfl | hp
          · refine Or.inl ?_
            rw [Bool.or_eq_true]
            refine Or.inr ?_
            rw [Nat.one_shiftLeft, ← hpb]
            exact Nat.testBit_two_pow_self
          · exact Or.inr ⟨p, hp, hpne, hpb⟩
    · rw [if_neg hq]
      constructor
      · rintro (hacc | ⟨p, hp, hpne, hpb⟩)
        · exact Or.inl hacc
        · exact Or.inr ⟨p, List.mem_cons_of_mem _ hp, hpne, hpb⟩
      · rintro (hacc | ⟨p, hp, hpne, hpb⟩)
        · exact Or.inl hacc
        · rcases List.mem_cons.1 hp with rfl | hp
          · exact absurd hpne hq
          · exact Or.inr ⟨p, hp, hpne, hpb⟩

theorem rundexToVector_lt (rd : List Int) (hlen : rd.length = 15) :
    rundexToVector rd < 8192 := by
  have hpos : ∀ p ∈ rd.enum, p.1 < 15 := by
    intro p hp
    have := (List.mem_enum (show (p.1, p.2) ∈ rd.enum from hp)).1
    omega
  unfold rundexToVector
  have hgen : ∀ (l : List (Nat × Int)) (acc : Nat), acc < 8192 →
      (∀ p ∈ l, p.1 < 15) →
      (l.foldl (fun value p =>
        if p.2 ≠ (0 : Int) then value ||| (1 <<< (p.1 - 2)) else value)
        acc) < 8192 := by
    intro l
    induction l with
    | nil =>
      intro acc hacc _
      exact hacc
    | cons q qs ih =>
      intro acc hacc hall
      show (qs.foldl _
        (if q.2 ≠ (0 : Int) then acc ||| (1 <<< (q.1 - 2)) else acc)) < 8192
      apply ih
      · by_cases hq : q.2 ≠ (0 : Int)
        · rw [if_pos hq]
          have h8192 : (8192 : Nat) = 2 ^ 13 := by norm_num
          rw [h8192]
          apply Nat.or_lt_two_pow
          · rw [← h8192]
            exact hacc
          · rw [Nat.one_shiftLeft]
            apply Nat.pow_lt_pow_right (by norm_num)
            have := hall q (List.mem_cons_self _ _)
            omega
        · rw [if_neg hq]
          exact hacc
      · intro p hp
        exact hall p (List.mem_cons_of_mem _ hp)
  exact hgen rd.enum 0 (by norm_num) hpos

theorem length_vectorToRundex (v : Nat) : (vectorToRundex v).length = 15 := by
  simp [vectorToRundex]

theorem getD_vectorToRundex (v r : Nat) (hr : r < 15) :
    (vectorToRundex v).getD r 0 =
      if r < 2 then 0 else if v.testBit (r - 2) then 1 else 0 := by
  unfold vectorToRundex
  exact getD_range_map _ 15 r hr 0

theorem ranksList_vectorToRundex (rd : List Int) (hlen : rd.length = 15)
    (hz0 : rd.getD 0 0 = 0) (hz1 : rd.getD 1 0 = 0) :
    ranksList (vectorToRundex (rundexToVector rd)) = ranksList rd := by
  apply List.Sublist.antisymm
  · apply sublist_of_subset_pairwise_lt _ _ (pairwise_ranksList _)
      (pairwise_ranksList _)
    intro r hr
    obtain ⟨hrlt, hrne⟩ := (mem_ranksList _ r).1 hr
    have hr15 : r < 15 := by
      rw [length_vectorToRundex] at hrlt
      exact hrlt
    rw [getD_vectorToRundex _ r hr15] at hrne
    by_cases hr2 : r < 2
    · rw [if_pos hr2] at hrne
      exact absurd rfl hrne
    · rw [if_neg hr2] at hrne
      by_cases htb : (rundexToVector rd).testBit (r - 2) = true
      · unfold rundexToVector at htb
        rcases (testBit_rundexFold (r - 2) rd.enum 0).1 htb with hz | hex
        · rw [Nat.zero_testBit] at hz
          exact absurd hz Bool.false_ne_true
        · obtain ⟨p, hp, hpne, hpb⟩ := hex
          have hpm := List.mem_enum (show (p.1, p.2) ∈ rd.enum from hp)
          have hplt : p.1 < rd.length := hpm.1
          have hpval : rd.getD p.1 0 = p.2 := by
            rw [getD_eq_getElem rd p.1 hplt]
            exact hpm.2.symm
          have hp2 : 2 ≤ p.1 := by
            by_contra hcon
            have : p.1 = 0 ∨ p.1 = 1 := by omega
            rcases this with h | h
            · rw [h] at hpval
              rw [hz0] at hpval
              exact hpne hpval.symm
            · rw [h] at hpval
              rw [hz1] at hpval
              exact hpne hpval.symm
          have hpr : p.1 = r := by omega
          apply (mem_ranksList rd r).2
          refine ⟨by omega, ?_⟩
          rw [← hpr, hpval]
          exact hpne
      · rw [if_neg htb] at hrne
        exact absurd rfl hrne
  · apply sublist_of_subset_pairwise_lt _ _ (pairwise_ranksList _)
      (pairwise_ranksList _)
    intro r hr
    obtain ⟨hrlt, hrne⟩ := (mem_ranksList rd r).1 hr
    have hr15 : r < 15 := by omega
    have hr2 : 2 ≤ r := by
      by_contra hcon
      have : r = 0 ∨ r = 1 := by omega
      rcases this with rfl | rfl
      · exact hrne hz0
      · exact hrne hz1
    apply (mem_ranksList _ r).2
    refine ⟨by rw [length_vectorToRundex]; omega, ?_⟩
    rw [getD_vectorToRundex _ r hr15, if_neg (by omega)]
    have htb : (rundexToVector rd).testBit (r - 2) = true := by
      unfold rundexToVector
      apply (testBit_rundexFold (r - 2) rd.enum 0).2
      right
      refine ⟨(r, rd.getD r 0), ?_, hrne, rfl⟩
      apply (mem_enum_iff _ rd r).2
      rw [getD_eq_getElem rd r (by omega)]
      exact List.getElem?_eq_getElem (by omega)
    rw [htb]
    simp

theorem ranksFromRundex_congr (rd1 rd2 : List Int) (j1 j2 : Int)
    (hr : ranksList rd1 = ranksList rd2) (hj : min 3 j1 = min 3 j2) :
    ranksFromRundex rd1 j1 = ranksFromRundex rd2 j2 := by
  simp only [ranksFromRundex]
  rw [hr, hj]

/-! ## Claim theorems: C4 -/

/-- C4 counterexample: on the hand of four jokers and no natural cards,
`iter_sets` and `iter_sets_lut` do NOT produce the same multiset of Sets:
the direct path builds sets from all four jokers (two sets per rank, 26 in
all) while the LUT path caps the budget at `_SET_LUT_MAX_JOKERS = 3` (one
set per rank, 13 in all). -/
theorem iter_sets_lut_differs_four_jokers :
    ¬ ((iterSetsLut hand4J : Multiset (List Card)) =
        (iterSets hand4J : Multiset (List Card))) := by
  intro heq
  have hcard := congrArg Multiset.card heq
  rw [Multiset.coe_card, Multiset.coe_card] at hcard
  have h1 : (iterSetsLut hand4J).length = 13 := by decide
  have h2 : (iterSets hand4J).length = 26 := by decide
  omega

/-- C4 amended: the LUT-backed run enumerator agrees with the direct one
on every reachable hand (the run budget is capped at 3 on both paths), and
the LUT-backed set enumerator agrees with the direct one on every
reachable hand with at most 3 jokers; with 4 or more jokers the set paths
differ, because only the LUT path caps the joker budget. -/
theorem lut_enumerators_agree (h : HandState) (hv : ValidHand h) :
    ((iterRunsLut h : Multiset (List Card)) =
        (iterRuns h : Multiset (List Card))) ∧
      (h.jokers ≤ 3 →
        (iterSetsLut h : Multiset (List Card)) =
          (iterSets h : Multiset (List Card))) := by
  obtain ⟨hjok, hrlen, hrows, hslen, hsbounds, hcards, hlink, hzero⟩ := hv
  constructor
  · have hlist : iterRunsLut h = iterRuns h := by
      unfold iterRunsLut iterRuns
      apply flatMap_congr
      intro color hcolor
      have hc4 := List.mem_range.1 hcolor
      congr 1
      have hj0 : (min h.jokers 3).toNat < 4 := by omega
      unfold runLutTable
      rw [getD_range_map _ 4 _ hj0]
      have hvlt : rundexToVector (h.rundexen.getD color []) < 8192 :=
        rundexToVector_lt _ (hrows color hc4)
      rw [getD_range_map _ 8192 _ hvlt]
      apply ranksFromRundex_congr
      · exact ranksList_vectorToRundex _ (hrows color hc4)
          (hzero color hc4).1 (hzero color hc4).2
      · omega
    rw [hlist]
  · intro hj3
    have hlist : iterSetsLut h = iterSets h := by
      unfold iterSetsLut iterSets
      apply flatMap_congr
      intro p hp
      by_cases hp2 : p.1 < 2
      · rw [if_pos hp2, if_pos hp2]
      · rw [if_neg hp2, if_neg hp2]
        congr 1
        have hj0 : (min 3 h.jokers).toNat < 4 := by omega
        unfold setLutTable
        rw [getD_range_map _ 4 _ hj0]
        have hpmem := List.mem_enum (show (p.1, p.2) ∈ h.setdexen.enum from hp)
        have hp15 : p.1 < h.setdexen.length := hpmem.1
        have hpval : h.setdexen.getD p.1 0 = p.2 := by
          rw [getD_eq_getElem _ _ hp15]
          exact hpmem.2.symm
        have hbounds := hsbounds p.1 (by omega)
        have hlt256 : p.2.toNat < 256 := by omega
        rw [getD_range_map _ 256 _ hlt256]
        have hcast : (((min 3 h.jokers).toNat : Nat) : Int) = h.jokers := by
          omega
        rw [hcast]
    rw [hlist]

/-- C4 witness: the amended agreement applied to the concrete one-joker
hand {2♠, 2♣, 2♦, joker}. -/
theorem lut_enumerators_agree_witness :
    ValidHand hand6 ∧ hand6.jokers ≤ 3 ∧
      (iterRunsLut hand6 : Multiset (List Card)) =
        (iterRuns hand6 : Multiset (List Card)) ∧
      (iterSetsLut hand6 : Multiset (List Card)) =
        (iterSets hand6 : Multiset (List Card)) :=
  ⟨by decide, by decide,
    (lut_enumerators_agree hand6 (by decide)).1,
    (lut_enumerators_agree hand6 (by decide)).2 (by decide)⟩

/-- C8: `iter_adds` yields the empty `Add` among its results for every
hand and target set, and `iter_extends` yields the no-op `Extend` (empty
left prefix, empty right suffix) among its results for every hand and
target run — both are in fact emitted first. -/
theorem empty_updates_emitted :
    (∀ (h : HandState) (set_ : List Card), ([] : List Card) ∈ iterAdds h set_) ∧
      ∀ (h : HandState) (run : List Card),
        Extend.mk run [] [] ∈ iterExtends h run := by
  constructor
  · intro h set_
    exact List.mem_cons_self _ _
  · intro h run
    exact List.mem_cons_self _ _

end Liverpool
